import Mathlib

/-!
Verification of the Matrix Pivot & Formatting Engine of the
financialMatrixPro Power BI visual (src/visual.ts), against its
natural-language specification.

The engine is embedded shallowly:

* JavaScript `Map` objects are embedded as insertion-ordered association
  lists (`alGet` / `alSet`); `Map.set` replaces an existing key in place
  and appends a new key at the end, exactly as the association-list
  `alSet` does.
* JavaScript numbers are embedded as exact rationals.  `NaN` and the two
  infinities are collapsed into the single marker `JVal.nf`
  ("non-finite"); the engine funnels every non-finite intermediate
  through `Number.isFinite` checks, which treat `NaN` and infinities
  identically, before a value can reach the cell map, so the collapse is
  observationally harmless for the verified properties (comments mark
  the few spots where an infinity would behave differently mid-formula).
* `undefined` and `null` coincide in every embedded code path (the
  source only ever tests them with `== null`, `?? null` or truthiness),
  so both are embedded as `JVal.null` / `Option.none`.

Definitions follow the TypeScript source closely and keep its names.
-/

namespace FinMatrix

/-- Insertion-ordered association-list lookup, embedding `Map.get`. -/
def alGet {α : Type} (m : List (String × α)) (k : String) : Option α :=
  match m with
  | [] => none
  | (k2, v) :: tl => if k2 = k then some v else alGet tl k

/-- Insertion-ordered association-list update, embedding `Map.set`:
replaces an existing key in place, appends a fresh key at the end. -/
def alSet {α : Type} (m : List (String × α)) (k : String) (v : α) :
    List (String × α) :=
  match m with
  | [] => [(k, v)]
  | (k2, v2) :: tl => if k2 = k then (k2, v) :: tl else (k2, v2) :: alSet tl k v

/-- The cell value map `valuesMap : Map<string, Map<string, number | null>>`.
The inner `Option ℚ` is the stored `number | null` (`none` = `null`). -/
abbrev VMap := List (String × List (String × Option ℚ))

/-- Presence-aware cell lookup: `none` = the key is absent from the maps,
`some none` = the cell is present and holds `null`. -/
def cellGet (vm : VMap) (code colKey : String) : Option (Option ℚ) :=
  (alGet vm code).bind (fun row => alGet row colKey)

/-- The `valuesMap.get(code)?.get(colKey)` read as the source consumes it
with `== null` / `?? null`: absent and `null` collapse to `none`. -/
def cellRead (vm : VMap) (code colKey : String) : Option ℚ :=
  (cellGet vm code colKey).join

/-- `if (!valuesMap.has(code)) valuesMap.set(code, new Map()); valuesMap.get(code)!.set(colKey, v)`. -/
def cellSet (vm : VMap) (code colKey : String) (v : Option ℚ) : VMap :=
  alSet vm code (alSet ((alGet vm code).getD []) colKey v)

/-- A JavaScript value as the engine sees it.  `nf` stands for any
non-finite number (`NaN`, `Infinity`, `-Infinity`): the engine only ever
distinguishes them through `Number.isFinite`, which rejects all three.
`undefined` is embedded as `null` (the source only tests both with
`== null` / `?? null` / truthiness, which identify them). -/
inductive JVal where
  | num (q : ℚ)
  | nf
  | str (s : String)
  | bool (b : Bool)
  | null
deriving DecidableEq

/-- `String.prototype.trim()`.  (Defined over the character list because the
bundled `String.trim` does not reduce inside the kernel.) -/
def jsTrim (s : String) : String :=
  ⟨((s.toList.dropWhile Char.isWhitespace).reverse.dropWhile
      Char.isWhitespace).reverse⟩

/-- `String.prototype.toLowerCase()` (ASCII, which is all the engine compares). -/
def jsLower (s : String) : String := ⟨s.toList.map Char.toLower⟩

/-- `String.prototype.toUpperCase()` (ASCII, which is all the engine compares). -/
def jsUpper (s : String) : String := ⟨s.toList.map Char.toUpper⟩

/-!
Kernel-computable rational arithmetic.  The bundled `Rat` operations are
`@[extern]` and do not reduce inside the kernel, which would make
concrete evaluation of the embedded engine (`decide` / `rfl`) impossible;
these wrappers go through `mkRat`, which does reduce.  The bridge lemmas
right below identify them with the ordinary field operations, so all
abstract reasoning still happens over standard `ℚ` arithmetic.
-/
def qadd (a b : ℚ) : ℚ := mkRat (a.num * b.den + b.num * a.den) (a.den * b.den)

def qneg (a : ℚ) : ℚ := mkRat (-a.num) a.den

def qsub (a b : ℚ) : ℚ := qadd a (qneg b)

def qmul (a b : ℚ) : ℚ := mkRat (a.num * b.num) (a.den * b.den)

def qinv (a : ℚ) : ℚ :=
  if 0 ≤ a.num then mkRat (a.den : ℤ) a.num.toNat
  else qneg (mkRat (a.den : ℤ) (-a.num).toNat)

def qdiv (a b : ℚ) : ℚ := qmul a (qinv b)

def qpow (a : ℚ) : Nat → ℚ
  | 0 => 1
  | n + 1 => qmul (qpow a n) a

/-- Digit-list value, for the decimal part of `Number(string)`. -/
def digitsVal (l : List Char) : ℚ :=
  l.foldl (fun a c => qadd (qmul a 10) ((c.toNat - 48 : ℕ) : ℚ)) 0

/-- `Number(string)` restricted to plain decimal literals with optional
sign and fraction, the forms the visual's configuration strings use.
The exotic forms (`0x..`, exponents, `Infinity`) are not embedded and
map to `none` (= not finite), which is also what the engine's
`Number.isFinite` guards make of them downstream. -/
def jsNumber (s : String) : Option ℚ :=
  let t := jsTrim s
  if t.isEmpty then some 0 else
  let (sign, body) : ℚ × List Char :=
    match t.toList with
    | '+' :: rest => (1, rest)
    | '-' :: rest => (-1, rest)
    | l => (1, l)
  let ip := body.takeWhile (fun c => c ≠ '.')
  let rest := body.dropWhile (fun c => c ≠ '.')
  match rest with
  | [] =>
    if ip ≠ [] ∧ ip.all Char.isDigit then some (qmul sign (digitsVal ip))
    else none
  | _ :: fp =>
    if (ip ≠ [] ∨ fp ≠ []) ∧ ip.all Char.isDigit ∧ fp.all Char.isDigit then
      some (qmul sign
        (qadd (digitsVal ip) (qdiv (digitsVal fp) (qpow 10 fp.length))))
    else none

/-- `function toNumber(v: any): number` — total coercion to a number;
`none` is the non-finite result (the source returns `NaN` there). -/
def toNumber : JVal → Option ℚ
  | .num q => some q
  | .nf => none
  | .bool b => some (if b then 1 else 0)
  | .null => none
  | .str s => jsNumber s

/-- `function toBool(v: any): boolean`.  (`toBool(Infinity)` is `true` in
JavaScript but `nf` is collapsed with `NaN` here; no verified claim
reaches that corner.) -/
def toBool : JVal → Bool
  | .num q => q ≠ 0
  | .nf => false
  | .bool b => b
  | .str s => s.length > 0
  | .null => false

/-- `addCell(code, colKey, rawAny)` — the CellAggregator step, lines
5429-5447 of visual.ts (the parallel `valuesRawMap` bookkeeping, which
never feeds back into the numeric map, is not embedded).  A non-numeric
raw only plants a `null` when the cell is absent; a numeric raw is added
onto a previous finite sum and otherwise replaces `null`/absent. -/
def addCell (vm : VMap) (code colKey : String) (rawAny : JVal) : VMap :=
  match toNumber rawAny with
  | none =>
    match cellGet vm code colKey with
    | some _ => vm
    | none => cellSet vm code colKey none
  | some n =>
    let next : ℚ :=
      match cellRead vm code colKey with
      | none => n
      | some prev => qadd prev n
    cellSet vm code colKey (some next)

/-- Folding a whole bound-data record stream of `(rowCode, colKey, raw)`
triples through `addCell`, as the record loop of `buildModel` does. -/
def addCells (vm : VMap) (ts : List (String × String × JVal)) : VMap :=
  ts.foldl (fun m t => addCell m t.1 t.2.1 t.2.2) vm

/-- The raw contributions a triple stream maps to one `(code, colKey)` cell. -/
def contribsFor (ts : List (String × String × JVal)) (c k : String) :
    List JVal :=
  (ts.filter (fun t => t.1 = c ∧ t.2.1 = k)).map (fun t => t.2.2)

/-- `reduce`-style left sum, as the source's `nums.reduce((s, x) => s + x, 0)`. -/
def nsum (l : List ℚ) : ℚ := l.foldl qadd 0

/-- How one `addCell` call transforms the observable state of the single
cell it addresses. -/
def cellStep (cur : Option (Option ℚ)) (raw : JVal) : Option (Option ℚ) :=
  match toNumber raw with
  | none =>
    match cur with
    | some x => some x
    | none => some none
  | some n =>
    match cur with
    | some (some p) => some (some (qadd p n))
    | _ => some (some n)

/-! ## The row model and the formula engine -/
mutual

/-- A formula AST node, as produced by `ExprParser.parse()`.  Argument
lists are a bespoke mutual inductive (`AstL`) instead of `List Ast` so
that all recursion over the AST is structural and kernel-computable. -/
inductive Ast where
  | num (q : ℚ)
  | str (s : String)
  | ref (c : String)
  | ident (s : String)
  | un (op : String) (e : Ast)
  | bin (op : String) (l : Ast) (r : Ast)
  | call (name : String) (args : AstL)
deriving DecidableEq

inductive AstL where
  | nil
  | cons (hd : Ast) (tl : AstL)
deriving DecidableEq

end

/-- A `RowNode` of the model.  `type` is kept as a raw string, exactly as
the loosely-typed source stores it (only `"blank"` and `"calc"` are ever
compared against).  `formula` is `none` when the row has no (or an empty)
formula string; `some none` when the formula string fails to parse;
`some (some ast)` when it parses — the source reparses the unchanging
formula string on every fixpoint pass, and parsing is deterministic, so
carrying the parse result is equivalent.  The `depth` mutation and the
cosmetic `style` override of the source are not carried: no verified
property reads them. -/
structure Row where
  code : String
  label : String := ""
  parent : Option String := none
  type : String := "data"
  orderIndex : ℚ := 0
  order : Option ℚ := none
  formula : Option (Option Ast) := none
  children : List String := []
  rowLevel : Option Int := none
  groupKey : Option String := none
  isTotal : Bool := false
deriving DecidableEq

/-- `rowByCode.get(code)` over the insertion-ordered row list (codes are
unique in a built model, so first match and map lookup agree). -/
def rowLookup (rows : List Row) (code : String) : Option Row :=
  rows.find? (fun r => r.code = code)

/-- `getCell(code, colKey)` from `buildModel`: a missing or `null` cell
reads as `null`, or `0` under blank-as-zero. -/
def getCell (bz : Bool) (vm : VMap) (code colKey : String) : Option ℚ :=
  match cellRead vm code colKey with
  | none => if bz then some 0 else none
  | some v => some v

/-- A `number | null` cell value as a JavaScript value. -/
def ofCell : Option ℚ → JVal
  | some q => .num q
  | none => .null

/-- A (possibly non-finite) number as a JavaScript value. -/
def jnum : Option ℚ → JVal
  | some q => .num q
  | none => .nf

/-- `args[i]` — a missing argument is `undefined`, which behaves exactly
like `null` under `toNumber` / `toBool` / `?? ""`. -/
def argGet (l : List JVal) (i : Nat) : JVal := l.getD i .null

def qabs (q : ℚ) : ℚ := if q.num < 0 then qneg q else q

def qmin (a b : ℚ) : ℚ := if a ≤ b then a else b

def qmax (a b : ℚ) : ℚ := if a ≤ b then b else a

/-- Floor on exact rationals (`Int.fdiv` is floor division). -/
def qfloor (q : ℚ) : ℤ := Int.fdiv q.num (q.den : ℤ)

/-- `Math.round` — half-up, also for negatives (`Math.round(-2.5) = -2`). -/
def jround (q : ℚ) : ℤ := qfloor (qadd q (mkRat 1 2))

def natStrAux : Nat → Nat → List Char
  | 0, _ => []
  | _ + 1, 0 => []
  | fuel + 1, n => natStrAux fuel (n / 10) ++ [Char.ofNat (48 + n % 10)]

/-- Decimal rendering of a natural number. -/
def natStr (n : Nat) : String :=
  if n = 0 then "0" else ⟨natStrAux (n + 1) n⟩

/-- Decimal rendering of an integer. -/
def intStr (i : ℤ) : String :=
  if i < 0 then "-" ++ natStr (-i).toNat else natStr i.toNat

/-- `String(x ?? "").trim()` — the `asRowCode` helper of `evalAst`.
JavaScript number→string printing is embedded for integers only, the
only numeric form a row code can take in practice; non-integer numbers
render as a dummy token that matches no row. -/
def asRowCode (v : JVal) : String :=
  match v with
  | .null => ""
  | .str s => jsTrim s
  | .bool b => if b then "true" else "false"
  | .nf => "NaN"
  | .num q => if q.den = 1 then intStr q.num else "?"

/-- Non-finite-propagating arithmetic on JavaScript numbers (`none` is
the collapsed `NaN`/`Infinity` class). -/
def oadd : Option ℚ → Option ℚ → Option ℚ
  | some a, some b => some (qadd a b)
  | _, _ => none

def osub : Option ℚ → Option ℚ → Option ℚ
  | some a, some b => some (qsub a b)
  | _, _ => none

def omul : Option ℚ → Option ℚ → Option ℚ
  | some a, some b => some (qmul a b)
  | _, _ => none

/-- Division; `x / 0` is `±Infinity`/`NaN` in JavaScript, collapsed to
the non-finite class here. -/
def odiv : Option ℚ → Option ℚ → Option ℚ
  | some a, some b => if b = 0 then none else some (qdiv a b)
  | _, _ => none

/-- `Math.pow`, embedded for integer exponents; a fractional exponent
generally yields an irrational (unrepresentable) result and is collapsed
to the non-finite class. -/
def opow : Option ℚ → Option ℚ → Option ℚ
  | some a, some b =>
    if b.den = 1 then
      if 0 ≤ b.num then some (qpow a b.num.toNat)
      else if a = 0 then none
      else some (qinv (qpow a (-b.num).toNat))
    else none
  | _, _ => none

/-- `toNumber(l) > toNumber(r)` — any `NaN` operand compares false.
(In JavaScript an infinity would compare true against a finite number;
infinities are collapsed with `NaN` here, see the header note.) -/
def oGT : Option ℚ → Option ℚ → Bool
  | some a, some b => decide (b < a)
  | _, _ => false

def oLT : Option ℚ → Option ℚ → Bool
  | some a, some b => decide (a < b)
  | _, _ => false

def oGE : Option ℚ → Option ℚ → Bool
  | some a, some b => decide (b ≤ a)
  | _, _ => false

def oLE : Option ℚ → Option ℚ → Bool
  | some a, some b => decide (a ≤ b)
  | _, _ => false

/-- `toNumber(l) === toNumber(r)`; `NaN === NaN` is false. -/
def oEQ : Option ℚ → Option ℚ → Bool
  | some a, some b => decide (a = b)
  | _, _ => false

/-- `toNumber(l) !== toNumber(r)`; any `NaN` operand compares true. -/
def oNE : Option ℚ → Option ℚ → Bool
  | some a, some b => decide (a ≠ b)
  | _, _ => true

/-- The numeric-argument collector of the `SUM/AVG/MIN/MAX/COUNT`
aggregate: a string argument is a row reference read in the current
column (skipped when `null`), anything else is coerced with `toNumber`
(skipped when non-finite). -/
def aggNums (bz : Bool) (vm : VMap) (cur : String) (args : List JVal) :
    List ℚ :=
  args.foldl
    (fun acc a =>
      match a with
      | .str s =>
        match getCell bz vm (jsTrim s) cur with
        | none => acc
        | some v => acc ++ [v]
      | _ =>
        match toNumber a with
        | none => acc
        | some n => acc ++ [n])
    []

mutual

/-- `evalAst(ast, ctx)` — the formula interpreter, lines 5767-5889 of
visual.ts.  `cur` is `ctx.currentColKey`; `rows` stands for `rowByCode`;
`bz` is the captured blank-as-zero flag of the surrounding `getCell`. -/
def evalAst (rows : List Row) (bz : Bool) (vm : VMap) (cur : String) :
    Ast → JVal
  | .num q => .num q
  | .str s => .str s
  | .ref c => ofCell (getCell bz vm c cur)
  | .ident s =>
    let upper := jsUpper s
    if upper = "TRUE" then .bool true
    else if upper = "FALSE" then .bool false
    else .num 0
  | .un op e =>
    let v := evalAst rows bz vm cur e
    let opU := jsUpper op
    if opU = "+" then jnum (toNumber v)
    else if opU = "-" then jnum ((toNumber v).map qneg)
    else if opU = "NOT" ∨ opU = "!" then .bool (!toBool v)
    else jnum (toNumber v)
  | .bin op l r =>
    let lv := evalAst rows bz vm cur l
    let rv := evalAst rows bz vm cur r
    let opU := jsUpper op
    if opU = "+" then jnum (oadd (toNumber lv) (toNumber rv))
    else if opU = "-" then jnum (osub (toNumber lv) (toNumber rv))
    else if opU = "*" then jnum (omul (toNumber lv) (toNumber rv))
    else if opU = "/" then jnum (odiv (toNumber lv) (toNumber rv))
    else if opU = "^" then jnum (opow (toNumber lv) (toNumber rv))
    else if opU = ">" then .bool (oGT (toNumber lv) (toNumber rv))
    else if opU = "<" then .bool (oLT (toNumber lv) (toNumber rv))
    else if opU = ">=" then .bool (oGE (toNumber lv) (toNumber rv))
    else if opU = "<=" then .bool (oLE (toNumber lv) (toNumber rv))
    else if opU = "==" then .bool (oEQ (toNumber lv) (toNumber rv))
    else if opU = "!=" then .bool (oNE (toNumber lv) (toNumber rv))
    else if opU = "AND" ∨ opU = "&&" then .bool (toBool lv && toBool rv)
    else if opU = "OR" ∨ opU = "||" then .bool (toBool lv || toBool rv)
    else .num 0
  | .call name args =>
    let nameU := jsUpper name
    let vargs := evalArgs rows bz vm cur args
    if nameU = "VALUE" then
      let code := asRowCode (argGet vargs 0)
      let measure := if vargs.length ≥ 2 then asRowCode (argGet vargs 1) else ""
      let period := if vargs.length ≥ 3 then asRowCode (argGet vargs 2) else ""
      let colKey :=
        if measure ≠ "" ∨ period ≠ "" then
          if period ≠ "" ∧ measure ≠ "" then period ++ "||" ++ measure
          else if measure ≠ "" then measure
          else period
        else cur
      ofCell (getCell bz vm code colKey)
    else if nameU = "IF" then
      jnum (toNumber (argGet vargs (if toBool (argGet vargs 0) then 1 else 2)))
    else if nameU = "ABS" then
      jnum ((toNumber (argGet vargs 0)).map qabs)
    else if nameU = "ROUND" then
      let n := toNumber (argGet vargs 0)
      let d := if vargs.length ≥ 2 then toNumber (argGet vargs 1) else some 0
      match n, d with
      | some nq, some dq =>
        let dN : Nat := (max 0 (qfloor dq)).toNat
        let p := qpow 10 dN
        .num (qdiv ((jround (qmul nq p) : ℤ) : ℚ) p)
      | _, _ => .nf
    else if nameU = "SUM" ∨ nameU = "AVG" ∨ nameU = "MIN" ∨ nameU = "MAX"
        ∨ nameU = "COUNT" then
      let nums := aggNums bz vm cur vargs
      if nameU = "COUNT" then .num (nums.length : ℚ)
      else
        match nums with
        | [] => .num 0
        | h :: t =>
          if nameU = "SUM" then .num (nsum nums)
          else if nameU = "AVG" then .num (qdiv (nsum nums) (nums.length : ℚ))
          else if nameU = "MIN" then .num (t.foldl qmin h)
          else .num (t.foldl qmax h)
    else if nameU = "SUMCHILDREN" ∨ nameU = "AVGCHILDREN"
        ∨ nameU = "COUNTCHILDREN" then
      let code := asRowCode (argGet vargs 0)
      match rowLookup rows code with
      | none => .num 0
      | some node =>
        let childVals := node.children.filterMap (fun c => getCell bz vm c cur)
        if nameU = "COUNTCHILDREN" then .num (childVals.length : ℚ)
        else
          match childVals with
          | [] => .num 0
          | _ =>
            if nameU = "SUMCHILDREN" then .num (nsum childVals)
            else .num (qdiv (nsum childVals) (childVals.length : ℚ))
    else .num 0

/-- `ast.args.map(a => evalAst(a, ctx))` — arguments are all evaluated
up front, with no short-circuiting, exactly as in the source. -/
def evalArgs (rows : List Row) (bz : Bool) (vm : VMap) (cur : String) :
    AstL → List JVal
  | .nil => []
  | .cons a tl => evalAst rows bz vm cur a :: evalArgs rows bz vm cur tl

end

/-! ## The model-build pipeline (default, non-custom-table path) -/
/-- `const calcRows = [...rowByCode.values()].filter(r => r.type === "calc" && !!r.formula)`. -/
def calcRowsOf (rows : List Row) : List Row :=
  rows.filter (fun r => r.type = "calc" && r.formula.isSome)

/-- What a pass stores for a calc row with parsed formula `ast` in column
`k`, evaluated against map `vm` (`const out = evalAst(...); const num =
toNumber(out); const next = Number.isFinite(num) ? num : (blankAsZero ?
0 : null)`). -/
def nextVal (rows : List Row) (bz : Bool) (vm : VMap) (k : String)
    (ast : Ast) : Option ℚ :=
  match toNumber (evalAst rows bz vm k ast) with
  | some q => some q
  | none => if bz then some 0 else none

/-- The per-column body of a fixpoint pass for one calc row `r` whose
parse result is `astO`: a parse failure (`none`) writes `null` without
raising the `changed` flag; otherwise the formula is evaluated against
the *current* map and the cell is written (raising the flag) only when
its value moves. -/
def passCol (rows : List Row) (bz : Bool) (r : Row) (astO : Option Ast)
    (st : VMap × Bool) (k : String) : VMap × Bool :=
  match astO with
  | none => (cellSet st.1 r.code k none, st.2)
  | some ast =>
    let next := nextVal rows bz st.1 k ast
    if cellRead st.1 r.code k ≠ next then
      (cellSet st.1 r.code k next, true)
    else st

/-- One calc row's share of a fixpoint pass: all columns in order. -/
def passStep (rows : List Row) (columns : List String) (bz : Bool)
    (st : VMap × Bool) (r : Row) : VMap × Bool :=
  match r.formula with
  | none => st
  | some astO => columns.foldl (passCol rows bz r astO) st

/-- One fixpoint pass over all calc rows (body of the `for (let pass = 0;
pass < 6; pass++)` loop, lines 5892-5916). -/
def passOnce (rows : List Row) (columns : List String) (bz : Bool)
    (vm : VMap) : VMap × Bool :=
  (calcRowsOf rows).foldl (passStep rows columns bz) (vm, false)

def runFixpointAux (rows : List Row) (columns : List String) (bz : Bool) :
    Nat → VMap → VMap
  | 0, vm => vm
  | n + 1, vm =>
    let p := passOnce rows columns bz vm
    if p.2 then runFixpointAux rows columns bz n p.1 else p.1

/-- The bounded formula fixpoint: up to 6 passes, stopping as soon as a
pass changes nothing. -/
def runFixpoint (rows : List Row) (columns : List String) (bz : Bool)
    (vm : VMap) : VMap :=
  runFixpointAux rows columns bz 6 vm

/-- `k` unconditional passes, for stating how many passes the loop took. -/
def passIter (rows : List Row) (columns : List String) (bz : Bool) :
    Nat → VMap → VMap
  | 0, vm => vm
  | n + 1, vm => passIter rows columns bz n (passOnce rows columns bz vm).1

/-- `let sum = 0; let hasAny = false; for child: skip nulls, add` — the
direct-children sum both `autoAggregateParents` and `pushSubtotalFor`
compute: `null` (or `0` under blank-as-zero) when no child has a value. -/
def childSum (bz : Bool) (r : Row) (vm : VMap) (k : String) : Option ℚ :=
  let vs := r.children.filterMap (fun c => cellRead vm c k)
  if vs.isEmpty then (if bz then some 0 else none) else some (nsum vs)

def autoAggCol (bz : Bool) (r : Row) (vm2 : VMap) (k : String) : VMap :=
  match cellRead vm2 r.code k with
  | some _ => vm2
  | none => cellSet vm2 r.code k (childSum bz r vm2 k)

/-- One row's share of the `autoAggregateParents` pass (lines 5921-5936):
skip blank/calc/leaf rows; fill every column where the row has no value
with the sum of its children's present values. -/
def autoAggStep (columns : List String) (bz : Bool) (vm : VMap) (r : Row) :
    VMap :=
  if r.type = "blank" ∨ r.type = "calc" ∨ r.children.isEmpty then vm
  else columns.foldl (autoAggCol bz r) vm

/-- The `autoAggregateParents` pass: `const postOrder = [...flatRows].reverse()`
followed by the per-row fill. -/
def autoAggPass (columns : List String) (bz : Bool) (flat : List Row)
    (vm : VMap) : VMap :=
  flat.reverse.foldl (autoAggStep columns bz) vm

/-- The `null` pre-fill (lines 5745-5751): every hierarchy row gets an
entry for every column, `null` where nothing was aggregated. -/
def prefill (rows : List Row) (columns : List String) (vm : VMap) : VMap :=
  rows.foldl
    (fun vm2 r =>
      let vm3 := if (alGet vm2 r.code).isSome then vm2 else alSet vm2 r.code []
      columns.foldl
        (fun vm4 k =>
          match cellGet vm4 r.code k with
          | some _ => vm4
          | none => cellSet vm4 r.code k none)
        vm3)
    vm

/-- Plain pre-order flattening (`visit` / `flatRows`, lines 5709-5722).
The source recursion has no fuel because the reachable children graph of
a built model is a forest; the embedding takes explicit fuel, and
`buildCore` supplies `rows.length + 1`, enough for any forest. -/
def visitFlat (rows : List Row) : Nat → String → List Row → List Row
  | 0, _, acc => acc
  | fuel + 1, code, acc =>
    match rowLookup rows code with
    | none => acc
    | some r =>
      r.children.foldl (fun a c => visitFlat rows fuel c a) (acc ++ [r])

def flattenForest (rows : List Row) (roots : List String) (fuel : Nat) :
    List Row :=
  roots.foldl (fun a c => visitFlat rows fuel c a) []

/-- The default subtotal label: template `"Total {label}"` applied to the
row label (`formatSubtotalLabel` with the default template). -/
def subLabel (l : String) : String := jsTrim ("Total " ++ jsTrim l)

/-- The synthetic subtotal row pushed for an internal row `r`. -/
def subtotalRowFor (r : Row) : Row :=
  { code := r.code ++ "||__subtotal"
    label := subLabel r.label
    parent := r.parent
    type := "calc"
    orderIndex := qadd r.orderIndex (mkRat 1 2)
    order := r.order
    formula := none
    children := []
    rowLevel := r.rowLevel
    groupKey := r.groupKey
    isTotal := true }

/-- `pushSubtotalFor(r)` (lines 5943-5979): skip the synthetic group root
(`rowLevel === -1`), blank/calc rows, and leaves; otherwise store, per
column, the sum of the row's *direct* children's present values (`null`
or `0` when none) under `code||__subtotal`, and append the synthetic row. -/
def subCol (bz : Bool) (r : Row) (vm : VMap) (k : String) : VMap :=
  cellSet vm (r.code ++ "||__subtotal") k (childSum bz r vm k)

def pushSubtotalFor (columns : List String) (bz : Bool) (r : Row)
    (st : List Row × VMap) : List Row × VMap :=
  if r.rowLevel = some (-1) ∨ r.type = "blank" ∨ r.type = "calc"
      ∨ r.children.isEmpty then st
  else (st.1 ++ [subtotalRowFor r], columns.foldl (subCol bz r) st.2)

/-- `visitWithSubtotals(code)` (lines 5981-5989): emit the row, its whole
subtree, then its subtotal. -/
def visitSub (rows : List Row) (columns : List String) (bz : Bool) :
    Nat → String → List Row × VMap → List Row × VMap
  | 0, _, st => st
  | fuel + 1, code, st =>
    match rowLookup rows code with
    | none => st
    | some r =>
      let st1 := (st.1 ++ [r], st.2)
      let st2 := r.children.foldl
        (fun s c => visitSub rows columns bz fuel c s) st1
      pushSubtotalFor columns bz r st2

/-- The whole subtotal injection (lines 5940-5996): rebuild the flat list
from the roots, interleaving subtotal rows. -/
def subtotalForest (rows : List Row) (columns : List String) (bz : Bool)
    (roots : List String) (fuel : Nat) (vm : VMap) : List Row × VMap :=
  roots.foldl (fun st c => visitSub rows columns bz fuel c st) ([], vm)

/-- The synthetic grand-total row. -/
def gtRow : Row :=
  { code := "__grand_total"
    label := "Grand Total"
    parent := none
    type := "calc"
    orderIndex := 1000000
    children := []
    rowLevel := none
    groupKey := none
    isTotal := true }

/-- The same skip-nulls running sum, over an arbitrary row list (the
grand total's `sumRows`). -/
def rowsSum (bz : Bool) (rs : List Row) (vm : VMap) (k : String) : Option ℚ :=
  let vs := rs.filterMap (fun r => cellRead vm r.code k)
  if vs.isEmpty then (if bz then some 0 else none) else some (nsum vs)

def gtCol (bz : Bool) (sumRows : List Row) (vmk : VMap) (k : String) : VMap :=
  cellSet vmk "__grand_total" k (rowsSum bz sumRows vmk k)

/-- The grand-total injection (lines 5999-6030): append one synthetic row
and store, per column, the sum over the *non-blank leaf non-total* rows'
present values. -/
def gtPass (columns : List String) (bz : Bool) (flat : List Row)
    (vm : VMap) : List Row × VMap :=
  let sumRows := flat.filter
    (fun r => r.type ≠ "blank" && r.children.isEmpty && !r.isTotal)
  (flat ++ [gtRow], columns.foldl (gtCol bz sumRows) vm)

/-- The four toggles the verified part of `buildModel` consumes. -/
structure Cfg where
  blankAsZero : Bool
  autoAggregateParents : Bool
  showSubtotals : Bool
  showGrandTotal : Bool

/-- The verified core of `buildModel` (default path), starting after the
hierarchy is linked and sorted: aggregate the raw triples (`addCell`
loop), pre-fill `null`s, run the formula fixpoint, then — in the
source's statement order — auto-aggregate parents, inject subtotals and
the grand total.  `columns` is the ordered list of built column keys. -/
def buildCore (cfg : Cfg) (rows : List Row) (roots : List String)
    (columns : List String) (triples : List (String × String × JVal)) :
    List Row × VMap :=
  let vm0 := addCells [] triples
  let flat := flattenForest rows roots (rows.length + 1)
  let vm1 := prefill rows columns vm0
  let vm2 := runFixpoint rows columns cfg.blankAsZero vm1
  let vm3 := if cfg.autoAggregateParents then
      autoAggPass columns cfg.blankAsZero flat vm2
    else vm2
  let s4 := if cfg.showSubtotals then
      subtotalForest rows columns cfg.blankAsZero roots (rows.length + 1) vm3
    else (flat, vm3)
  if cfg.showGrandTotal then gtPass columns cfg.blankAsZero s4.1 s4.2 else s4

/-! ## Static-reference analysis of formulas

A formula is *static* when every cell it can read is named by a
syntactic `[code]` row reference; these are the formulas the spec's
"referencing only plain data rows" examples use (`[B]+1`). -/
/-- The row codes a static formula reads. -/
def readsOf : Ast → List String
  | .num _ => []
  | .str _ => []
  | .ident _ => []
  | .ref c => [c]
  | .un _ e => readsOf e
  | .bin _ l r => readsOf l ++ readsOf r
  | .call _ _ => []

/-- Call-free formulas: every cell read is a syntactic `[code]` reference. -/
def staticOnly : Ast → Bool
  | .num _ => true
  | .str _ => true
  | .ident _ => true
  | .ref _ => true
  | .un _ e => staticOnly e
  | .bin _ l r => staticOnly l && staticOnly r
  | .call _ _ => false

/-- The pipeline in the order the specification states it (C1):
auto-aggregation *before* the formula fixpoint.  This definition follows
the spec's words, for comparison with `buildCore`, which follows the
source. -/
def specOrderedBuild (cfg : Cfg) (rows : List Row) (roots : List String)
    (columns : List String) (triples : List (String × String × JVal)) :
    List Row × VMap :=
  let vm0 := addCells [] triples
  let flat := flattenForest rows roots (rows.length + 1)
  let vm1 := prefill rows columns vm0
  let vm2 := if cfg.autoAggregateParents then
      autoAggPass columns cfg.blankAsZero flat vm1
    else vm1
  let vm3 := runFixpoint rows columns cfg.blankAsZero vm2
  let s4 := if cfg.showSubtotals then
      subtotalForest rows columns cfg.blankAsZero roots (rows.length + 1) vm3
    else (flat, vm3)
  if cfg.showGrandTotal then gtPass columns cfg.blankAsZero s4.1 s4.2 else s4

/-! ## Fixpoint-pass lemmas -/
/-- Whether `c` is the code of some calc row (= may be written by a pass). -/
def isCalcCode (rows : List Row) (c : String) : Bool :=
  (calcRowsOf rows).any (fun r => r.code = c)

/-- `vm'` agrees with `vm` on every cell of every non-calc row. -/
def agreeNonCalc (rows : List Row) (bz : Bool) (vm vm' : VMap) : Prop :=
  ∀ c k, isCalcCode rows c = false → getCell bz vm' c k = getCell bz vm c k

/-- Every parsed calc formula is static and reads only non-calc rows. -/
def calcStatic (rows : List Row) : Prop :=
  ∀ r ∈ calcRowsOf rows, ∀ ast, r.formula = some (some ast) →
    staticOnly ast = true ∧ ∀ c ∈ readsOf ast, isCalcCode rows c = false

/-- Shorthand for the Nodup-codes hypothesis on the calc rows. -/
def calcNodup (rows : List Row) : Prop :=
  ((calcRowsOf rows).map (fun r => r.code)).Nodup

/-- Executable check for `calcStatic` (used to discharge hypotheses on
concrete inputs). -/
def calcStaticB (rows : List Row) : Bool :=
  (calcRowsOf rows).all (fun r =>
    match r.formula with
    | some (some ast) =>
      staticOnly ast && (readsOf ast).all (fun c => !isCalcCode rows c)
    | _ => true)

/-- The spec's one-pass example: calc row `A = "[B]+1"` over data row `B`. -/
def fixRows : List Row :=
  [ { code := "B" },
    { code := "A", type := "calc",
      formula := some (some (Ast.bin "+" (Ast.ref "B") (Ast.num 1))) } ]

def fixVm : VMap := [("B", [("k", some 5)])]

def aggP : Row := { code := "P", children := ["A", "B"] }

def aggFlat : List Row := [aggP, { code := "A" }, { code := "B" }]

def aggVm : VMap := [("A", [("k", some 5)]), ("B", [("k", some 3)])]

/-- Subtotal codes: `code||__subtotal`. -/
def endsWithSub (c : String) : Bool :=
  ("||__subtotal".toList).isSuffixOf c.toList

/-- The C1 scenario: data parent `P` (child `A`, no explicit value of its
own), data leaf `A` = 5, calc row `C` with formula `[P]`. -/
def c1Rows : List Row :=
  [ { code := "P", children := ["A"] },
    { code := "A" },
    { code := "C", type := "calc", formula := some (some (Ast.ref "P")) } ]

def c1Cfg : Cfg :=
  { blankAsZero := false, autoAggregateParents := true,
    showSubtotals := false, showGrandTotal := false }

def c1Triples : List (String × String × JVal) := [("A", "k", JVal.num 5)]

def c10Cfg : Cfg :=
  { blankAsZero := true, autoAggregateParents := true,
    showSubtotals := true, showGrandTotal := true }

/-- The claim's own grand-total definition, from the spec's words: sum
over all rows that are leaves (no children) and not themselves totals —
with no exclusion of blank-typed rows. -/
def claimedGrandTotal (bz : Bool) (flat : List Row) (vm : VMap)
    (k : String) : Option ℚ :=
  rowsSum bz (flat.filter (fun r => r.children.isEmpty && !r.isTotal)) vm k

def c6Flat : List Row := [{ code := "A" }, { code := "B", type := "blank" }]

def c6Vm : VMap := [("A", [("k", some 3)]), ("B", [("k", some 5)])]

/-! ## Subtotal-traversal lemmas (C5) -/
/-- The out-list a subtotal visit appends for one subtree (the map part
does not influence which rows are emitted, only the stored values). -/
def blockOf (rows : List Row) (columns : List String) (bz : Bool)
    (fuel : Nat) (code : String) : List Row :=
  (visitSub rows columns bz fuel code ([], [])).1

/-- The codes a subtotal visit reaches, mirroring `visitSub`'s recursion. -/
def subCodes (rows : List Row) : Nat → String → List String
  | 0, _ => []
  | fuel + 1, code =>
    match rowLookup rows code with
    | none => []
    | some r =>
      code :: r.children.foldl (fun acc c => acc ++ subCodes rows fuel c) []

def subCodesForest (rows : List Row) (roots : List String) (fuel : Nat) :
    List String :=
  roots.foldl (fun acc c => acc ++ subCodes rows fuel c) []

def c5P : Row :=
  { code := "P", label := "Parent", children := ["A"] }

def c5A : Row :=
  { code := "A", label := "Leaf", parent := some "P" }

def c5Rows : List Row := [c5P, c5A]

def c5Vm : VMap := cellSet (cellSet [] "A" "k" (some 5)) "A" "j" (some 3)

def c5xP : Row :=
  { code := "P", label := "Parent", type := "calc", children := ["A"] }

def c5xRows : List Row := [c5xP, c5A]

/-! ## Column keys and the VALUE override (C7) -/
/-- `colLevels.join("||")` — `Array.prototype.join` with a separator. -/
def joinSep (sep : String) : List String → String
  | [] => ""
  | [x] => x
  | x :: xs => x ++ sep ++ joinSep sep xs

/-- `ensureColumn`'s key construction (lines 5385-5402):
`leaf = bucket||measureName`, `key = colLevels.join("||")||leaf`. -/
def ensureColumnKey (bucket measureName : String)
    (colLevels : List String) : String :=
  joinSep "||" colLevels ++ "||" ++ (bucket ++ "||" ++ measureName)

def c7Key : String := ensureColumnKey "values" "Sales" ["2023"]

def c7Vm : VMap := cellSet [] "A" c7Key (some 7)

def c7Ast : Ast :=
  .call "VALUE" (.cons (.str "A")
    (.cons (.str "Sales") (.cons (.str "2023") .nil)))

def c7AstNoOv : Ast := .call "VALUE" (.cons (.str "A") .nil)

/-! ## Layout declarations versus data discovery (C8) -/
/-- The fields of a `LayoutRow` declaration that `addRow` (lines
5615-5636) reads for the merge.  `label`/`type`: `none` = the JSON field
is absent (`undefined`); `parent`: `none` = absent, `some none` =
declared `null`, `some (some s)` = declared string.  The remaining
declaration fields (`order`, `formula`, `style`) play no part in the
label/parent precedence. -/
structure LayoutRowIn where
  code : String := ""
  label : Option String := none
  parent : Option (Option String) := none
  type : Option String := none
deriving DecidableEq

/-- The built `RowNode` fields the merge writes. -/
structure BRow where
  code : String
  label : String
  parent : Option String
  type : String
  orderIndex : Nat
deriving DecidableEq

/-- JavaScript `a || b` on strings: `""` is falsy. -/
def jsOr (a b : String) : String := if a = "" then b else a

/-- JavaScript truthiness test of a `string | null` field: `null` and
`""` are falsy. -/
def strFalsy : Option String → Bool
  | none => true
  | some s => s = ""

/-- `addRow(r, fallbackLabel?, fallbackParent?)` (lines 5615-5636):
`code = (r.code || "").trim()`, skip when empty; `label = (r.label ||
fallbackLabel || code).trim()`; `parent = r.parent !== undefined ?
(r.parent ? r.parent.trim() : null) : (fallbackParent ?? null)`;
`type = r.type || "data"`; then `rowByCode.set(code, ...)` with the
running `orderIndex++`. -/
def addRow (m : List (String × BRow)) (oi : Nat) (r : LayoutRowIn)
    (fallbackLabel : Option String) (fallbackParent : Option String) :
    List (String × BRow) × Nat :=
  let code := jsTrim r.code
  if code = "" then (m, oi)
  else
    let label := jsTrim (jsOr (jsOr (r.label.getD "")
      (fallbackLabel.getD "")) code)
    let parent : Option String :=
      match r.parent with
      | none => fallbackParent
      | some none => none
      | some (some s) => if s = "" then none else some (jsTrim s)
    let ty := jsOr (r.type.getD "") "data"
    (alSet m code
      { code := code, label := label, parent := parent,
        orderIndex := oi, type := ty },
      oi + 1)

/-- One step of the data-discovery merge loop (lines 5641-5654): a code
already in `rowByCode` keeps its node, with the discovered data filling
only a falsy (`null` or `""`) parent and an empty label; an undeclared
code is added as a fresh `"data"` row with the discovered label/parent
as fallbacks. -/
def dataStep (dataParents : List (String × String))
    (st : List (String × BRow) × Nat) (p : String × String) :
    List (String × BRow) × Nat :=
  match alGet st.1 p.1 with
  | some ex =>
    let ex1 := if strFalsy ex.parent then
        { ex with parent := alGet dataParents p.1 } else ex
    let ex2 := if ex1.label = "" then { ex1 with label := p.2 } else ex1
    (alSet st.1 p.1 ex2, st.2)
  | none =>
    addRow st.1 st.2 { code := p.1, type := some "data" }
      (some p.2) (alGet dataParents p.1)

/-- The whole row-map construction (lines 5638-5654): layout rows first
(`addRow(r, undefined, null)`), then the data-discovered
`(code, label)` entries. -/
def buildRows (layoutRows : List LayoutRowIn)
    (dataLabels dataParents : List (String × String)) :
    List (String × BRow) :=
  (dataLabels.foldl (dataStep dataParents)
    (layoutRows.foldl (fun st r => addRow st.1 st.2 r none none)
      ([], 0))).1

def c8Layout : List LayoutRowIn :=
  [{ code := "B", label := some "Child", parent := some (some "A0") }]

def c8xLayout : List LayoutRowIn :=
  [{ code := "B", label := some "Child", parent := some none }]

def c8Labels : List (String × String) := [("B", "DataLabel")]

def c8Parents : List (String × String) := [("B", "A")]

/-! ## Conditional formatting (C9) -/
/-- A `CFStyle`: every property optional; `none` = the property is absent
from the object.  `normalizeCfRule` (lines 1296-1306) only sets the
properties a rule defines ("Absent properties must remain absent so they
don't overwrite other rules when merged"), so a defined `bold := false`
is `some false`, distinct from absent. -/
structure CFStyleE where
  fontColor : Option String := none
  background : Option String := none
  iconName : Option String := none
  bold : Option Bool := none
  italic : Option Bool := none
  underline : Option Bool := none
deriving DecidableEq

/-- The fields of a normalized `CFRule` the evaluators read. -/
structure CFRuleE where
  enabled : Bool := true
  target : String := "rowHeader"
  scope : String := "self"
  formatProp : String := "background"
  rowMatchMode : String := "any"
  rowMatchText : String := ""
  colMatchMode : String := "any"
  colMatchText : String := ""
  conditionType : String := "value"
  operator : String := "gte"
  value1 : String := ""
  value2 : String := ""
  style : CFStyleE := {}
deriving DecidableEq

/-- The evaluation context both evaluators receive (undefined string
fields are `""`, which behaves identically under `|| ""`). -/
structure CFCtx where
  target : String := ""
  formatProp : Option String := none
  rowCode : String := ""
  rowLabel : String := ""
  colKey : String := ""
  colText : String := ""
  value : JVal := .null
  text : String := ""
deriving DecidableEq

/-- First-defined-wins on optional values (`b`'s property falls back to
`a`'s), the per-property effect of the object spread. -/
def oOr {α : Type} : Option α → Option α → Option α
  | some v, _ => some v
  | none, b => b

/-- `{ ...a, ...b }` on styles: each property defined in `b` overwrites
`a`'s, each property absent from `b` keeps `a`'s. -/
def mergeStyle (a b : CFStyleE) : CFStyleE :=
  { fontColor := oOr b.fontColor a.fontColor
    background := oOr b.background a.background
    iconName := oOr b.iconName a.iconName
    bold := oOr b.bold a.bold
    italic := oOr b.italic a.italic
    underline := oOr b.underline a.underline }

/-- `norm = (s) => (s || "").trim().toLowerCase()`. -/
def cfNorm (s : String) : String := jsLower (jsTrim s)

def listStartsWith : List Char → List Char → Bool
  | _, [] => true
  | [], _ :: _ => false
  | c :: h, d :: n => c = d && listStartsWith h n

def listContainsSub : List Char → List Char → Bool
  | [], n => n.isEmpty
  | c :: t, n => listStartsWith (c :: t) n || listContainsSub t n

/-- `String.prototype.includes` (the empty needle is always found). -/
def strIncludes (h n : String) : Bool := listContainsSub h.toList n.toList

/-- The `matchText` closure shared by both evaluators (lines 1400-1407):
mode `"any"` or an empty (normalized) needle always match; `"equals"`
compares, anything else is `contains`. -/
def matchText (mode needle hay : String) : Bool :=
  if mode = "any" then true
  else
    let n := cfNorm needle
    if n = "" then true
    else
      let h := cfNorm hay
      if mode = "equals" then h = n else strIncludes h n

/-- `parseNum`: `Number((s || "").trim())`, `NaN` (= `none`) unless
finite. -/
def parseNum (s : String) : Option ℚ := jsNumber (jsTrim s)

/-- The numeric condition switch (`conditionType === "value"`): `ok` is
false unless the cell value is a finite number, and false whenever the
parsed threshold(s) are not finite. -/
def cfValueOk (rule : CFRuleE) (v : JVal) : Bool :=
  match v with
  | .num q =>
    let a := parseNum rule.value1
    let b := parseNum rule.value2
    if rule.operator = "gt" then oGT (some q) a
    else if rule.operator = "gte" then oGE (some q) a
    else if rule.operator = "lt" then oLT (some q) a
    else if rule.operator = "lte" then oLE (some q) a
    else if rule.operator = "eq" then oEQ (some q) a
    else if rule.operator = "between" then
      match a, b with
      | some a0, some b0 =>
        oGE (some q) (some (qmin a0 b0)) && oLE (some q) (some (qmax a0 b0))
      | _, _ => false
    else false
  | _ => false

/-- The text condition switch (`conditionType` text branch): `contains`
or `eq` on the normalized strings; an empty needle and every other
operator yield false. -/
def cfTextOk (rule : CFRuleE) (t : String) : Bool :=
  let tn := cfNorm t
  let n := cfNorm rule.value1
  if rule.operator = "contains" then
    if n ≠ "" then strIncludes tn n else false
  else if rule.operator = "eq" then
    if n ≠ "" then decide (tn = n) else false
  else false

/-- The `continue` guard chain of one `evalCfRules` iteration (lines
1415-1461), folded into a single match predicate: enabled, target equal,
format-tab filter (only when the context requests one), the row and
column text filters, then the value or text condition. -/
def cfMatches (ctx : CFCtx) (rule : CFRuleE) : Bool :=
  if rule.enabled = false then false
  else if rule.target ≠ ctx.target then false
  else if strFalsy ctx.formatProp = false ∧
      jsOr rule.formatProp "background" ≠ ctx.formatProp.getD "" then false
  else if matchText rule.rowMatchMode rule.rowMatchText
      (jsOr ctx.rowLabel ctx.rowCode) = false then false
  else if matchText rule.colMatchMode rule.colMatchText
      (jsOr ctx.colText ctx.colKey) = false then false
  else if rule.conditionType = "value" then cfValueOk rule ctx.value
  else cfTextOk rule ctx.text

/-- The `continue` guard chain of one `evalCfRulesForValueCell`
iteration (lines 1493-1570): enabled and format-tab filter as above,
then one of three admission branches — a `rowHeader` rule scoped
`entireRow` (text condition on the row hay), a `columnHeader` rule
scoped `entireColumn` (text condition on the column hay), or a plain
`cell` rule (value condition); anything else never matches. -/
def cfMatchesV (ctx : CFCtx) (rule : CFRuleE) : Bool :=
  if rule.enabled = false then false
  else if strFalsy ctx.formatProp = false ∧
      jsOr rule.formatProp "background" ≠ ctx.formatProp.getD "" then false
  else
    let rowHay := jsOr ctx.rowLabel ctx.rowCode
    let colHay := jsOr ctx.colText ctx.colKey
    let rowM := matchText rule.rowMatchMode rule.rowMatchText rowHay
    let colM := matchText rule.colMatchMode rule.colMatchText colHay
    if rule.target = "rowHeader" ∧ jsOr rule.scope "self" = "entireRow" then
      rowM && colM &&
        (if rule.conditionType = "text" then cfTextOk rule rowHay else false)
    else if rule.target = "columnHeader" ∧
        jsOr rule.scope "self" = "entireColumn" then
      rowM && colM &&
        (if rule.conditionType = "text" then cfTextOk rule colHay else false)
    else if rule.target ≠ "cell" then false
    else
      rowM && colM &&
        (if rule.conditionType = "value" then cfValueOk rule ctx.value
         else false)

/-- One loop iteration: on a match,
`out = { ...(out || {}), ...(rule.style || {}) }`; otherwise (any
`continue`) `out` is unchanged.  The guards never read `out`, so the
iteration is exactly this conditional merge. -/
def cfFoldStep (m : CFRuleE → Bool) (out : Option CFStyleE)
    (r : CFRuleE) : Option CFStyleE :=
  if m r then some (mergeStyle (out.getD {}) r.style) else out

/-- `evalCfRules(config, ctx)` (lines 1414-1466): `out` starts `null`. -/
def evalCfRules (rules : List CFRuleE) (ctx : CFCtx) : Option CFStyleE :=
  rules.foldl (cfFoldStep (cfMatches ctx)) none

/-- `evalCfRulesForValueCell(config, ctx)` (lines 1468-1578). -/
def evalCfRulesForValueCell (rules : List CFRuleE) (ctx : CFCtx) :
    Option CFStyleE :=
  rules.foldl (cfFoldStep (cfMatchesV ctx)) none

/-- The six style properties, for property-wise statements. -/
inductive StyleProp where
  | fontColor
  | background
  | iconName
  | bold
  | italic
  | underline
deriving DecidableEq

def getProp (s : CFStyleE) : StyleProp → Option (String ⊕ Bool)
  | .fontColor => s.fontColor.map Sum.inl
  | .background => s.background.map Sum.inl
  | .iconName => s.iconName.map Sum.inl
  | .bold => s.bold.map Sum.inr
  | .italic => s.italic.map Sum.inr
  | .underline => s.underline.map Sum.inr

def c9r1 : CFRuleE :=
  { target := "cell", formatProp := "background",
    conditionType := "value", operator := "gte", value1 := "0",
    style := { background := some "#ff0000", fontColor := some "#111111" } }

def c9r2 : CFRuleE :=
  { target := "cell", formatProp := "background",
    conditionType := "value", operator := "gt", value1 := "1",
    style := { background := some "#00ff00" } }

def c9ctx : CFCtx :=
  { target := "cell", formatProp := some "background",
    rowCode := "A", rowLabel := "Alpha", colKey := "k", colText := "K",
    value := .num 5 }

/-!
With the engine fully embedded above, everything that follows is proof:
supporting lemmas, the per-claim theorems, and their concrete witnesses.
-/

theorem alGet_set_self {α : Type} (m : List (String × α)) (k : String) (v : α) :
    alGet (alSet m k v) k = some v := by
  induction m with
  | nil => simp [alGet, alSet]
  | cons hd tl ih =>
    obtain ⟨k2, v2⟩ := hd
    by_cases h : k2 = k <;> simp [alGet, alSet, h, ih]

theorem alGet_set_ne {α : Type} (m : List (String × α)) {k k2 : String} (v : α)
    (h : k2 ≠ k) : alGet (alSet m k v) k2 = alGet m k2 := by
  have h2 : k ≠ k2 := fun hh => h hh.symm
  induction m with
  | nil => simp [alGet, alSet, h2]
  | cons hd tl ih =>
    obtain ⟨k3, v3⟩ := hd
    by_cases h3 : k3 = k
    · subst h3
      simp [alGet, alSet, h2]
    · simp only [alSet, if_neg h3]
      by_cases h4 : k3 = k2 <;> simp [alGet, h4, ih]

theorem alSet_same {α : Type} (m : List (String × α)) {k : String} {v : α}
    (h : alGet m k = some v) : alSet m k v = m := by
  induction m with
  | nil => simp [alGet] at h
  | cons hd tl ih =>
    obtain ⟨k2, v2⟩ := hd
    by_cases h2 : k2 = k
    · subst h2
      simp [alGet] at h
      simp [alSet, h]
    · simp [alGet, h2] at h
      simp [alSet, h2, ih h]

theorem cellGet_set_self (vm : VMap) (c k : String) (v : Option ℚ) :
    cellGet (cellSet vm c k v) c k = some v := by
  simp [cellGet, cellSet, alGet_set_self]

theorem cellGet_set_ne (vm : VMap) {c k c2 k2 : String} (v : Option ℚ)
    (h : c2 ≠ c ∨ k2 ≠ k) :
    cellGet (cellSet vm c k v) c2 k2 = cellGet vm c2 k2 := by
  by_cases hc : c2 = c
  · subst hc
    rcases h with h | h
    · exact absurd rfl h
    · simp [cellGet, cellSet, alGet_set_self, alGet_set_ne _ _ h]
      cases hrow : alGet vm c2 <;> simp [alGet]
  · simp [cellGet, cellSet, alGet_set_ne _ _ hc]

theorem cellRead_set_ne (vm : VMap) {c k c2 k2 : String} (v : Option ℚ)
    (h : c2 ≠ c ∨ k2 ≠ k) :
    cellRead (cellSet vm c k v) c2 k2 = cellRead vm c2 k2 := by
  simp [cellRead, cellGet_set_ne vm v h]

theorem cellSet_same (vm : VMap) {c k : String} {v : Option ℚ}
    (h : cellGet vm c k = some v) : cellSet vm c k v = vm := by
  unfold cellGet at h
  cases hrow : alGet vm c with
  | none => simp [hrow] at h
  | some row =>
    simp only [hrow, Option.bind_some] at h
    unfold cellSet
    rw [hrow]
    simp only [Option.getD_some]
    rw [alSet_same row h, alSet_same vm hrow]

theorem cellGet_set_isSome (vm : VMap) (c k c2 k2 : String) (v : Option ℚ)
    (h : (cellGet vm c2 k2).isSome) :
    (cellGet (cellSet vm c k v) c2 k2).isSome := by
  by_cases hck : c2 = c ∧ k2 = k
  · obtain ⟨hc, hk⟩ := hck
    subst hc; subst hk
    simp [cellGet_set_self]
  · rw [cellGet_set_ne vm v (by tauto)]
    exact h

theorem qadd_eq (a b : ℚ) : qadd a b = a + b := by
  have ha : ((a.den : ℚ)) ≠ 0 := by exact_mod_cast a.den_nz
  have hb : ((b.den : ℚ)) ≠ 0 := by exact_mod_cast b.den_nz
  rw [qadd, Rat.mkRat_eq_div]
  push_cast
  conv_rhs => rw [← Rat.num_div_den a, ← Rat.num_div_den b]
  rw [div_add_div _ _ ha hb]
  ring_nf

theorem qneg_eq (a : ℚ) : qneg a = -a := by
  rw [qneg, Rat.mkRat_eq_div]
  push_cast
  rw [neg_div, Rat.num_div_den]

theorem qsub_eq (a b : ℚ) : qsub a b = a - b := by
  rw [qsub, qadd_eq, qneg_eq, sub_eq_add_neg]

theorem qmul_eq (a b : ℚ) : qmul a b = a * b := by
  rw [qmul, Rat.mkRat_eq_div]
  push_cast
  rw [← div_mul_div_comm, Rat.num_div_den, Rat.num_div_den]

theorem qinv_eq (a : ℚ) : qinv a = a⁻¹ := by
  have hinv : a⁻¹ = ((a.den : ℚ)) / ((a.num : ℚ)) := by
    rw [Rat.inv_def', Rat.divInt_eq_div]
    push_cast
    ring
  rcases le_or_lt 0 a.num with h | h
  · have h1 : ((a.num.toNat : ℚ)) = ((a.num : ℚ)) := by
      exact_mod_cast Int.toNat_of_nonneg h
    rw [qinv, if_pos h, Rat.mkRat_eq_div, hinv]
    push_cast
    rw [h1]
  · have h2 : (((-a.num).toNat : ℤ)) = -a.num :=
      Int.toNat_of_nonneg (by omega : (0:ℤ) ≤ -a.num)
    have h1 : (((-a.num).toNat : ℚ)) = -((a.num : ℚ)) := by
      exact_mod_cast h2
    rw [qinv, if_neg (not_le.mpr h), qneg_eq, Rat.mkRat_eq_div, hinv]
    push_cast
    rw [h1, div_neg, neg_neg]

theorem qdiv_eq (a b : ℚ) : qdiv a b = a / b := by
  rw [qdiv, qmul_eq, qinv_eq, div_eq_mul_inv]

theorem qpow_eq (a : ℚ) (n : Nat) : qpow a n = a ^ n := by
  induction n with
  | zero => simp [qpow]
  | succ n ih => rw [qpow, qmul_eq, ih, pow_succ]

theorem foldl_qadd_shift (l : List ℚ) (x : ℚ) :
    l.foldl qadd x = x + nsum l := by
  induction l generalizing x with
  | nil => simp [nsum]
  | cons a tl ih =>
    simp only [List.foldl_cons]
    rw [ih (qadd x a)]
    have h2 : nsum (a :: tl) = a + nsum tl := by
      show List.foldl qadd (qadd 0 a) tl = a + nsum tl
      rw [ih (qadd 0 a), qadd_eq, zero_add]
    rw [h2, qadd_eq]
    ring

theorem nsum_cons (a : ℚ) (l : List ℚ) : nsum (a :: l) = a + nsum l := by
  show List.foldl qadd (qadd 0 a) l = a + nsum l
  rw [foldl_qadd_shift l (qadd 0 a), qadd_eq, zero_add]

theorem cellGet_addCell_self (vm : VMap) (c k : String) (raw : JVal) :
    cellGet (addCell vm c k raw) c k = cellStep (cellGet vm c k) raw := by
  unfold addCell cellStep cellRead
  cases toNumber raw with
  | none =>
    cases h : cellGet vm c k with
    | none => simp [cellGet_set_self]
    | some x => exact h
  | some n =>
    cases h : cellGet vm c k with
    | none => simp [cellGet_set_self]
    | some x =>
      cases x with
      | none => simp [cellGet_set_self]
      | some p => simp [cellGet_set_self]

theorem cellGet_addCell_ne (vm : VMap) {c k c2 k2 : String} (raw : JVal)
    (h : c2 ≠ c ∨ k2 ≠ k) :
    cellGet (addCell vm c k raw) c2 k2 = cellGet vm c2 k2 := by
  unfold addCell
  cases toNumber raw with
  | none =>
    cases hg : cellGet vm c k with
    | none => simp [cellGet_set_ne vm _ h]
    | some x => simp
  | some n => simp [cellGet_set_ne vm _ h]

theorem cellGet_addCells (ts : List (String × String × JVal)) (vm : VMap)
    (c k : String) :
    cellGet (addCells vm ts) c k =
      (contribsFor ts c k).foldl cellStep (cellGet vm c k) := by
  induction ts generalizing vm with
  | nil => simp [addCells, contribsFor]
  | cons t tl ih =>
    obtain ⟨c2, k2, raw⟩ := t
    simp only [addCells, List.foldl_cons] at *
    rw [ih]
    by_cases hck : c2 = c ∧ k2 = k
    · obtain ⟨hc, hk⟩ := hck
      subst hc; subst hk
      simp [contribsFor, cellGet_addCell_self]
    · have hne : c ≠ c2 ∨ k ≠ k2 := by tauto
      rw [cellGet_addCell_ne vm raw hne]
      have : ¬(c2 = c ∧ k2 = k) := hck
      simp only [contribsFor, List.filter_cons]
      split
      · next hcond =>
        exfalso
        simp at hcond
        exact this ⟨hcond.1, hcond.2⟩
      · rfl

theorem foldl_cellStep_num (rs : List JVal) (s : ℚ) :
    rs.foldl cellStep (some (some s)) =
      some (some (s + nsum (rs.filterMap toNumber))) := by
  induction rs generalizing s with
  | nil => simp [nsum]
  | cons r tl ih =>
    simp only [List.foldl_cons, List.filterMap_cons]
    cases h : toNumber r with
    | none =>
      have hstep : cellStep (some (some s)) r = some (some s) := by
        simp [cellStep, h]
      rw [hstep]
      simp only [h]
      exact ih s
    | some n =>
      have hstep : cellStep (some (some s)) r = some (some (qadd s n)) := by
        simp [cellStep, h]
      rw [hstep]
      simp only [h]
      rw [ih (qadd s n), nsum_cons, qadd_eq, add_assoc]

theorem foldl_cellStep_null (rs : List JVal) :
    rs.foldl cellStep (some none) =
      (if (rs.filterMap toNumber).isEmpty then some none
       else some (some (nsum (rs.filterMap toNumber)))) := by
  induction rs with
  | nil => simp
  | cons r tl ih =>
    simp only [List.foldl_cons, List.filterMap_cons]
    cases h : toNumber r with
    | none =>
      have hstep : cellStep (some none) r = some none := by
        simp [cellStep, h]
      rw [hstep]
      simp only [h]
      exact ih
    | some n =>
      have hstep : cellStep (some none) r = some (some n) := by
        simp [cellStep, h]
      rw [hstep]
      simp only [h]
      rw [foldl_cellStep_num tl n]
      simp [nsum_cons]

/-- C2: For every `(rowCode, colKey)` cell, the aggregated numeric value is
the sum of all numeric raw contributions mapped to that cell; a non-numeric
raw contribution sets the cell to `null` only when no numeric contribution
has landed yet, and once any numeric contribution is recorded, later
non-numeric contributions never revert the numeric value to `null`.
Formally: after folding any record stream through `addCell` starting from
the empty map, a cell is absent iff it received no contribution, holds
`null` iff it received only non-numeric contributions, and otherwise holds
exactly the sum of its numeric contributions. -/
theorem C2_addCell_sums (ts : List (String × String × JVal)) (c k : String) :
    cellGet (addCells [] ts) c k =
      (if (contribsFor ts c k).isEmpty then none
       else if ((contribsFor ts c k).filterMap toNumber).isEmpty then some none
       else some (some (nsum ((contribsFor ts c k).filterMap toNumber)))) := by
  rw [cellGet_addCells]
  have hg : cellGet ([] : VMap) c k = none := rfl
  rw [hg]
  cases hrs : contribsFor ts c k with
  | nil => simp
  | cons r tl =>
    simp only [List.foldl_cons, List.filterMap_cons, List.isEmpty_cons,
      if_neg (by simp : ¬False)]
    cases h : toNumber r with
    | none =>
      have hstep : cellStep none r = some none := by simp [cellStep, h]
      rw [hstep, foldl_cellStep_null tl]
      simp
    | some n =>
      have hstep : cellStep none r = some (some n) := by simp [cellStep, h]
      rw [hstep, foldl_cellStep_num tl n]
      simp [nsum_cons]

example :
    cellGet (addCells [] [("r", "k", JVal.num 5), ("r", "k", JVal.num 3)])
      "r" "k" = some (some 8) := by decide

example :
    cellGet (addCells []
        [("r", "k", JVal.num 5), ("r", "k", JVal.str "x")]) "r" "k" =
      some (some 5) := by decide

/-- A static formula evaluates equally over two maps that agree on every
cell of every row it reads. -/
theorem evalAst_agree (rows : List Row) (bz : Bool) (vm vm2 : VMap)
    (cur : String) :
    ∀ a : Ast, staticOnly a = true →
      (∀ c ∈ readsOf a, ∀ k, getCell bz vm c k = getCell bz vm2 c k) →
      evalAst rows bz vm cur a = evalAst rows bz vm2 cur a
  | .num _, _, _ => rfl
  | .str _, _, _ => rfl
  | .ident _, _, _ => rfl
  | .ref c, _, h => by
    simp only [evalAst]
    rw [h c (by simp [readsOf]) cur]
  | .un op e, hs, h => by
    have hse : staticOnly e = true := by simpa [staticOnly] using hs
    have he := evalAst_agree rows bz vm vm2 cur e hse
      (fun c hc k => h c (by simpa [readsOf] using hc) k)
    simp only [evalAst, he]
  | .bin op l r, hs, h => by
    have hsl : staticOnly l = true ∧ staticOnly r = true := by
      simpa [staticOnly, Bool.and_eq_true] using hs
    have hl := evalAst_agree rows bz vm vm2 cur l hsl.1
      (fun c hc k => h c (by simp [readsOf, hc]) k)
    have hr := evalAst_agree rows bz vm vm2 cur r hsl.2
      (fun c hc k => h c (by simp [readsOf, hc]) k)
    simp only [evalAst, hl, hr]
  | .call _ _, hs, _ => by simp [staticOnly] at hs

theorem getCell_congr {bz : Bool} {vm vm' : VMap} {c k : String}
    (h : cellGet vm c k = cellGet vm' c k) :
    getCell bz vm c k = getCell bz vm' c k := by
  simp [getCell, cellRead, h]

theorem cellRead_congr {vm vm' : VMap} {c k : String}
    (h : cellGet vm c k = cellGet vm' c k) :
    cellRead vm c k = cellRead vm' c k := by
  simp [cellRead, h]

theorem passCol_other (rows : List Row) (bz : Bool) (r : Row)
    (astO : Option Ast) (st : VMap × Bool) (k : String) {c2 k2 : String}
    (h : c2 ≠ r.code) :
    cellGet (passCol rows bz r astO st k).1 c2 k2 = cellGet st.1 c2 k2 := by
  cases astO with
  | none => simp [passCol, cellGet_set_ne st.1 _ (Or.inl h)]
  | some ast =>
    simp only [passCol]
    by_cases hcond : cellRead st.1 r.code k ≠ nextVal rows bz st.1 k ast
    · rw [if_pos hcond]
      exact cellGet_set_ne st.1 _ (Or.inl h)
    · rw [if_neg hcond]

theorem passCol_agree (rows : List Row) (bz : Bool) (r : Row)
    (astO : Option Ast) (st : VMap × Bool) (k : String) (vm : VMap)
    (hcalc : isCalcCode rows r.code = true)
    (hR : agreeNonCalc rows bz vm st.1) :
    agreeNonCalc rows bz vm (passCol rows bz r astO st k).1 := by
  intro c k2 hc
  have hne : c ≠ r.code := by
    intro he
    simp [he, hcalc] at hc
  rw [getCell_congr (passCol_other rows bz r astO st k hne)]
  exact hR c k2 hc

theorem passColsStatic (rows : List Row) (bz : Bool) (r : Row) (ast : Ast)
    (vm : VMap) (hstat : staticOnly ast = true)
    (hreads : ∀ c ∈ readsOf ast, isCalcCode rows c = false)
    (hcalc : isCalcCode rows r.code = true) :
    ∀ (cols : List String) (st : VMap × Bool),
      agreeNonCalc rows bz vm st.1 →
      agreeNonCalc rows bz vm
          ((cols.foldl (passCol rows bz r (some ast)) st).1) ∧
        (∀ k, cellRead ((cols.foldl (passCol rows bz r (some ast)) st).1)
            r.code k =
          if k ∈ cols then nextVal rows bz vm k ast
          else cellRead st.1 r.code k) ∧
        (∀ c k, c ≠ r.code →
          cellGet ((cols.foldl (passCol rows bz r (some ast)) st).1) c k =
            cellGet st.1 c k) := by
  intro cols
  induction cols with
  | nil =>
    intro st hR
    exact ⟨hR, by simp, by simp⟩
  | cons k0 rest ih =>
    intro st hR
    have hagree : evalAst rows bz st.1 k0 ast = evalAst rows bz vm k0 ast :=
      evalAst_agree rows bz st.1 vm k0 ast hstat
        (fun c hc k => by
          have := hR c k (hreads c hc)
          rw [this])
    have hnext : nextVal rows bz st.1 k0 ast = nextVal rows bz vm k0 ast := by
      simp [nextVal, hagree]
    have hsetread : ∀ nv : Option ℚ,
        cellRead (cellSet st.1 r.code k0 nv) r.code k0 = nv := by
      intro nv
      simp [cellRead, cellGet_set_self]
    have hstep1 : cellRead ((passCol rows bz r (some ast) st k0).1) r.code k0 =
        nextVal rows bz vm k0 ast := by
      simp only [passCol]
      by_cases hcond :
          cellRead st.1 r.code k0 ≠ nextVal rows bz st.1 k0 ast
      · rw [if_pos hcond]
        rw [hsetread, hnext]
      · rw [if_neg hcond]
        rw [not_ne_iff] at hcond
        rw [hcond, hnext]
    have hstep2 : ∀ k, k ≠ k0 →
        cellRead ((passCol rows bz r (some ast) st k0).1) r.code k =
          cellRead st.1 r.code k := by
      intro k hk
      simp only [passCol]
      by_cases hcond :
          cellRead st.1 r.code k0 ≠ nextVal rows bz st.1 k0 ast
      · rw [if_pos hcond]
        exact cellRead_set_ne st.1 _ (Or.inr hk)
      · rw [if_neg hcond]
    have hstep3 : ∀ c k, c ≠ r.code →
        cellGet ((passCol rows bz r (some ast) st k0).1) c k =
          cellGet st.1 c k :=
      fun c k hc => passCol_other rows bz r (some ast) st k0 hc
    have hstepR : agreeNonCalc rows bz vm
        ((passCol rows bz r (some ast) st k0).1) :=
      passCol_agree rows bz r (some ast) st k0 vm hcalc hR
    obtain ⟨ihR, ihRead, ihOther⟩ :=
      ih (passCol rows bz r (some ast) st k0) hstepR
    simp only [List.foldl_cons]
    refine ⟨ihR, ?_, ?_⟩
    · intro k
      by_cases hmem : k ∈ rest
      · rw [ihRead k, if_pos hmem, if_pos (by simp [hmem])]
      · rw [ihRead k, if_neg hmem]
        by_cases hk0 : k = k0
        · subst hk0
          rw [if_pos (by simp), hstep1]
        · rw [if_neg (by simp [hk0, hmem]), hstep2 k hk0]
    · intro c k hc
      rw [ihOther c k hc, hstep3 c k hc]

theorem passColsNull (rows : List Row) (bz : Bool) (r : Row) :
    ∀ (cols : List String) (st : VMap × Bool),
      (∀ k, cellGet ((cols.foldl (passCol rows bz r none) st).1) r.code k =
        if k ∈ cols then some none else cellGet st.1 r.code k) ∧
      (∀ c k, c ≠ r.code →
        cellGet ((cols.foldl (passCol rows bz r none) st).1) c k =
          cellGet st.1 c k) ∧
      ((cols.foldl (passCol rows bz r none) st).2 = st.2) := by
  intro cols
  induction cols with
  | nil => intro st; exact ⟨by simp, by simp, rfl⟩
  | cons k0 rest ih =>
    intro st
    obtain ⟨ihRead, ihOther, ihFlag⟩ := ih (passCol rows bz r none st k0)
    simp only [List.foldl_cons]
    refine ⟨?_, ?_, ?_⟩
    · intro k
      by_cases hmem : k ∈ rest
      · rw [ihRead k, if_pos hmem, if_pos (by simp [hmem])]
      · rw [ihRead k, if_neg hmem]
        by_cases hk0 : k = k0
        · subst hk0
          rw [if_pos (by simp)]
          simp [passCol, cellGet_set_self]
        · rw [if_neg (by simp [hk0, hmem])]
          simp only [passCol]
          exact cellGet_set_ne st.1 _ (Or.inr hk0)
    · intro c k hc
      rw [ihOther c k hc]
      exact passCol_other rows bz r none st k0 hc
    · rw [ihFlag]
      rfl

theorem passColsStatic_idem (rows : List Row) (bz : Bool) (r : Row)
    (ast : Ast) (vm : VMap) (hstat : staticOnly ast = true)
    (hreads : ∀ c ∈ readsOf ast, isCalcCode rows c = false) :
    ∀ (cols : List String) (st : VMap × Bool),
      agreeNonCalc rows bz vm st.1 →
      (∀ k ∈ cols, cellRead st.1 r.code k = nextVal rows bz vm k ast) →
      cols.foldl (passCol rows bz r (some ast)) st = st := by
  intro cols
  induction cols with
  | nil => intro st _ _; rfl
  | cons k0 rest ih =>
    intro st hR hconv
    have hagree : evalAst rows bz st.1 k0 ast = evalAst rows bz vm k0 ast :=
      evalAst_agree rows bz st.1 vm k0 ast hstat
        (fun c hc k => by rw [hR c k (hreads c hc)])
    have hnext : nextVal rows bz st.1 k0 ast = nextVal rows bz vm k0 ast := by
      simp [nextVal, hagree]
    have hstep : passCol rows bz r (some ast) st k0 = st := by
      simp only [passCol]
      rw [if_neg]
      rw [not_ne_iff, hnext]
      exact hconv k0 (by simp)
    simp only [List.foldl_cons, hstep]
    exact ih st hR (fun k hk => hconv k (by simp [hk]))

theorem passColsNull_idem (rows : List Row) (bz : Bool) (r : Row) :
    ∀ (cols : List String) (st : VMap × Bool),
      (∀ k ∈ cols, cellGet st.1 r.code k = some none) →
      cols.foldl (passCol rows bz r none) st = st := by
  intro cols
  induction cols with
  | nil => intro st _; rfl
  | cons k0 rest ih =>
    intro st hconv
    have hstep : passCol rows bz r none st k0 = st := by
      simp only [passCol]
      rw [cellSet_same st.1 (hconv k0 (by simp))]
    simp only [List.foldl_cons, hstep]
    exact ih st (fun k hk => hconv k (by simp [hk]))

theorem isCalcCode_of_mem {rows : List Row} {r : Row}
    (h : r ∈ calcRowsOf rows) : isCalcCode rows r.code = true := by
  simp only [isCalcCode, List.any_eq_true]
  exact ⟨r, h, by simp⟩

theorem formula_isSome_of_mem {rows : List Row} {r : Row}
    (h : r ∈ calcRowsOf rows) : r.formula.isSome := by
  simp only [calcRowsOf, List.mem_filter, Bool.and_eq_true] at h
  exact h.2.2

theorem agreeNonCalc_refl (rows : List Row) (bz : Bool) (vm : VMap) :
    agreeNonCalc rows bz vm vm := fun _ _ _ => rfl

theorem agreeNonCalc_trans {rows : List Row} {bz : Bool} {vm vm' vm'' : VMap}
    (h1 : agreeNonCalc rows bz vm vm')
    (h2 : agreeNonCalc rows bz vm' vm'') :
    agreeNonCalc rows bz vm vm'' :=
  fun c k hc => (h2 c k hc).trans (h1 c k hc)

theorem nextVal_agree {rows : List Row} {bz : Bool} {vm vm' : VMap}
    {ast : Ast} (hstat : staticOnly ast = true)
    (hreads : ∀ c ∈ readsOf ast, isCalcCode rows c = false)
    (hR : agreeNonCalc rows bz vm vm') (k : String) :
    nextVal rows bz vm' k ast = nextVal rows bz vm k ast := by
  have := evalAst_agree rows bz vm' vm k ast hstat
    (fun c hc k2 => by rw [hR c k2 (hreads c hc)])
  simp [nextVal, this]

/-- The heart of a fixpoint pass: folding any Nodup-coded chunk of the
calc-row list from a map that agrees with `vm` off the calc rows
computes, for every parsed row of the chunk, `nextVal` relative to `vm`
in every column; writes `null` for the unparseable rows; and leaves
every other row's cells untouched. -/
theorem passRows_main (rows : List Row) (columns : List String) (bz : Bool)
    (vm : VMap) (hstatic : calcStatic rows) :
    ∀ (rs : List Row) (st : VMap × Bool),
      (∀ r ∈ rs, r ∈ calcRowsOf rows) →
      ((rs.map (fun r => r.code)).Nodup) →
      agreeNonCalc rows bz vm st.1 →
      agreeNonCalc rows bz vm
          ((rs.foldl (passStep rows columns bz) st).1) ∧
        (∀ r ∈ rs, ∀ ast, r.formula = some (some ast) →
          ∀ k ∈ columns,
            cellRead ((rs.foldl (passStep rows columns bz) st).1) r.code k =
              nextVal rows bz vm k ast) ∧
        (∀ r ∈ rs, r.formula = some none →
          ∀ k ∈ columns,
            cellGet ((rs.foldl (passStep rows columns bz) st).1) r.code k =
              some none) ∧
        (∀ c, (∀ r ∈ rs, r.code ≠ c) → ∀ k,
          cellGet ((rs.foldl (passStep rows columns bz) st).1) c k =
            cellGet st.1 c k) := by
  intro rs
  induction rs with
  | nil =>
    intro st _ _ hR
    exact ⟨hR, by simp, by simp, fun c _ k => rfl⟩
  | cons r0 rest ih =>
    intro st hmem hnodup hR
    have hr0 : r0 ∈ calcRowsOf rows := hmem r0 (by simp)
    have hcalc0 : isCalcCode rows r0.code = true := isCalcCode_of_mem hr0
    have hrest : ∀ r ∈ rest, r ∈ calcRowsOf rows :=
      fun r hr => hmem r (by simp [hr])
    have hnodupR : ((rest.map (fun r => r.code)).Nodup) := by
      simp only [List.map_cons, List.nodup_cons] at hnodup
      exact hnodup.2
    have hnotin : ∀ r ∈ rest, r.code ≠ r0.code := by
      intro r hr he
      simp only [List.map_cons, List.nodup_cons] at hnodup
      exact hnodup.1 (by
        rw [← he]
        exact List.mem_map_of_mem (fun r => r.code) hr)
    obtain ⟨astO, hastO⟩ := Option.isSome_iff_exists.mp
      (formula_isSome_of_mem hr0)
    have hstep_def :
        passStep rows columns bz st r0 =
          columns.foldl (passCol rows bz r0 astO) st := by
      simp [passStep, hastO]
    simp only [List.foldl_cons]
    cases astO with
    | none =>
      obtain ⟨nullRead, nullOther, _⟩ :=
        passColsNull rows bz r0 columns st
      have hstR : agreeNonCalc rows bz vm
          ((passStep rows columns bz st r0).1) := by
        rw [hstep_def]
        intro c k hc
        have hne : c ≠ r0.code := by
          intro he
          simp [he, hcalc0] at hc
        rw [getCell_congr (nullOther c k hne)]
        exact hR c k hc
      obtain ⟨ihR, ihCalc, ihNull, ihOther⟩ :=
        ih (passStep rows columns bz st r0) hrest hnodupR hstR
      refine ⟨ihR, ?_, ?_, ?_⟩
      · intro r hr ast hform k hk
        rcases List.mem_cons.mp hr with he | hr2
        · subst he
          rw [hform] at hastO
          exact absurd hastO.symm (by simp)
        · exact ihCalc r hr2 ast hform k hk
      · intro r hr hform k hk
        rcases List.mem_cons.mp hr with he | hr2
        · subst he
          rw [ihOther r.code (fun r2 hr2 => hnotin r2 hr2) k]
          rw [hstep_def, nullRead k, if_pos hk]
        · exact ihNull r hr2 hform k hk
      · intro c hc k
        rw [ihOther c (fun r2 hr2 => hc r2 (by simp [hr2])) k]
        rw [hstep_def, nullOther c k (Ne.symm (hc r0 (by simp)))]
    | some ast =>
      obtain ⟨hstat, hreads⟩ := hstatic r0 hr0 ast hastO
      obtain ⟨stR, stRead, stOther⟩ :=
        passColsStatic rows bz r0 ast vm hstat hreads hcalc0 columns st hR
      obtain ⟨ihR, ihCalc, ihNull, ihOther⟩ :=
        ih (passStep rows columns bz st r0)
          hrest hnodupR (by rw [hstep_def]; exact stR)
      refine ⟨ihR, ?_, ?_, ?_⟩
      · intro r hr ast2 hform k hk
        rcases List.mem_cons.mp hr with he | hr2
        · subst he
          rw [hform] at hastO
          have hasteq : ast2 = ast := by simpa using hastO
          subst hasteq
          rw [cellRead_congr (ihOther r.code (fun r2 hr2 => hnotin r2 hr2) k)]
          rw [hstep_def, stRead k, if_pos hk]
        · exact ihCalc r hr2 ast2 hform k hk
      · intro r hr hform k hk
        rcases List.mem_cons.mp hr with he | hr2
        · subst he
          rw [hform] at hastO
          exact absurd hastO.symm (by simp)
        · exact ihNull r hr2 hform k hk
      · intro c hc k
        rw [ihOther c (fun r2 hr2 => hc r2 (by simp [hr2])) k]
        rw [hstep_def, stOther c k (Ne.symm (hc r0 (by simp)))]

/-- A converged state is a fixed point of the whole row fold, `changed`
flag included. -/
theorem passRows_idem (rows : List Row) (columns : List String) (bz : Bool)
    (vm : VMap) (hstatic : calcStatic rows) :
    ∀ (rs : List Row) (st : VMap × Bool),
      (∀ r ∈ rs, r ∈ calcRowsOf rows) →
      agreeNonCalc rows bz vm st.1 →
      (∀ r ∈ rs, ∀ ast, r.formula = some (some ast) →
        ∀ k ∈ columns, cellRead st.1 r.code k = nextVal rows bz vm k ast) →
      (∀ r ∈ rs, r.formula = some none →
        ∀ k ∈ columns, cellGet st.1 r.code k = some none) →
      rs.foldl (passStep rows columns bz) st = st := by
  intro rs
  induction rs with
  | nil => intro st _ _ _ _; rfl
  | cons r0 rest ih =>
    intro st hmem hR hconv hnull
    have hr0 : r0 ∈ calcRowsOf rows := hmem r0 (by simp)
    obtain ⟨astO, hastO⟩ := Option.isSome_iff_exists.mp
      (formula_isSome_of_mem hr0)
    have hstep : passStep rows columns bz st r0 = st := by
      simp only [passStep, hastO]
      cases astO with
      | none =>
        exact passColsNull_idem rows bz r0 columns st
          (fun k hk => hnull r0 (by simp) hastO k hk)
      | some ast =>
        obtain ⟨hstat, hreads⟩ := hstatic r0 hr0 ast hastO
        exact passColsStatic_idem rows bz r0 ast vm hstat hreads columns st
          hR (fun k hk => hconv r0 (by simp) ast hastO k hk)
    simp only [List.foldl_cons, hstep]
    exact ih st (fun r hr => hmem r (by simp [hr])) hR
      (fun r hr => hconv r (by simp [hr]))
      (fun r hr => hnull r (by simp [hr]))

theorem passOnce_facts (rows : List Row) (columns : List String) (bz : Bool)
    (vm : VMap) (hstatic : calcStatic rows) (hnodup : calcNodup rows) :
    agreeNonCalc rows bz vm ((passOnce rows columns bz vm).1) ∧
      (∀ r ∈ calcRowsOf rows, ∀ ast, r.formula = some (some ast) →
        ∀ k ∈ columns,
          cellRead ((passOnce rows columns bz vm).1) r.code k =
            nextVal rows bz vm k ast) ∧
      (∀ r ∈ calcRowsOf rows, r.formula = some none →
        ∀ k ∈ columns,
          cellGet ((passOnce rows columns bz vm).1) r.code k = some none) := by
  obtain ⟨h1, h2, h3, _⟩ :=
    passRows_main rows columns bz vm hstatic (calcRowsOf rows) (vm, false)
      (fun r hr => hr) hnodup (agreeNonCalc_refl rows bz vm)
  exact ⟨h1, h2, h3⟩

theorem passOnce_idem (rows : List Row) (columns : List String) (bz : Bool)
    (vm : VMap) (hstatic : calcStatic rows) (hnodup : calcNodup rows) :
    passOnce rows columns bz ((passOnce rows columns bz vm).1) =
      ((passOnce rows columns bz vm).1, false) := by
  obtain ⟨h1, h2, h3⟩ := passOnce_facts rows columns bz vm hstatic hnodup
  exact passRows_idem rows columns bz vm hstatic (calcRowsOf rows)
    ((passOnce rows columns bz vm).1, false) (fun r hr => hr) h1 h2 h3

/-- The loop takes some number `k ≤ n` of effective passes. -/
theorem runFixpointAux_iter (rows : List Row) (columns : List String)
    (bz : Bool) : ∀ (n : Nat) (vm : VMap),
    ∃ k ≤ n, runFixpointAux rows columns bz n vm =
      passIter rows columns bz k vm := by
  intro n
  induction n with
  | zero => intro vm; exact ⟨0, le_refl 0, rfl⟩
  | succ n ih =>
    intro vm
    by_cases hch : (passOnce rows columns bz vm).2
    · obtain ⟨k, hk, hres⟩ := ih ((passOnce rows columns bz vm).1)
      refine ⟨k + 1, by omega, ?_⟩
      simp only [runFixpointAux, hch, if_true, passIter]
      exact hres
    · refine ⟨1, by omega, ?_⟩
      simp only [runFixpointAux, hch, if_false, passIter]
      rfl

/-- A state whose next pass changes nothing is returned immediately. -/
theorem runFixpointAux_stop (rows : List Row) (columns : List String)
    (bz : Bool) (n : Nat) (vm : VMap)
    (h : (passOnce rows columns bz vm).2 = false) :
    runFixpointAux rows columns bz (n + 1) vm =
      (passOnce rows columns bz vm).1 := by
  simp [runFixpointAux, h]

theorem runFixpointAux_go (rows : List Row) (columns : List String)
    (bz : Bool) (n : Nat) (vm : VMap)
    (h : (passOnce rows columns bz vm).2 = true) :
    runFixpointAux rows columns bz (n + 1) vm =
      runFixpointAux rows columns bz n ((passOnce rows columns bz vm).1) := by
  simp [runFixpointAux, h]

/-- With static data-only calc formulas the loop converges after the
first pass: the second pass verifies and changes nothing. -/
theorem runFixpoint_onePass (rows : List Row) (columns : List String)
    (bz : Bool) (vm : VMap) (hstatic : calcStatic rows)
    (hnodup : calcNodup rows) :
    runFixpoint rows columns bz vm = (passOnce rows columns bz vm).1 := by
  unfold runFixpoint
  by_cases hch : (passOnce rows columns bz vm).2
  · have hidem := passOnce_idem rows columns bz vm hstatic hnodup
    have hstop : runFixpointAux rows columns bz 5
        ((passOnce rows columns bz vm).1) =
        (passOnce rows columns bz ((passOnce rows columns bz vm).1)).1 :=
      runFixpointAux_stop rows columns bz 4 _ (by rw [hidem])
    rw [runFixpointAux_go rows columns bz 5 vm hch, hstop, hidem]
  · exact runFixpointAux_stop rows columns bz 5 vm (by simpa using hch)

/-- One static calc row is stable across however many passes the loop
takes (even when other calc rows are cyclic): its final value is its
first-pass value, and non-calc rows are never touched. -/
theorem runFixpoint_static_row (rows : List Row) (columns : List String)
    (bz : Bool) (vm : VMap) (hstatic : calcStatic rows)
    (hnodup : calcNodup rows) (r : Row) (hr : r ∈ calcRowsOf rows)
    (ast : Ast) (hform : r.formula = some (some ast)) :
    agreeNonCalc rows bz vm (runFixpoint rows columns bz vm) ∧
      ∀ k ∈ columns,
        cellRead (runFixpoint rows columns bz vm) r.code k =
          nextVal rows bz vm k ast := by
  obtain ⟨hstat, hreads⟩ := hstatic r hr ast hform
  have hstep : ∀ vm' : VMap, agreeNonCalc rows bz vm vm' →
      agreeNonCalc rows bz vm ((passOnce rows columns bz vm').1) ∧
        ∀ k ∈ columns,
          cellRead ((passOnce rows columns bz vm').1) r.code k =
            nextVal rows bz vm k ast := by
    intro vm' hA
    obtain ⟨f1, f2, _⟩ := passOnce_facts rows columns bz vm' hstatic hnodup
    refine ⟨agreeNonCalc_trans hA f1, fun k hk => ?_⟩
    rw [f2 r hr ast hform k hk]
    exact nextVal_agree hstat hreads hA k
  have haux : ∀ (n : Nat) (vm' : VMap),
      (agreeNonCalc rows bz vm vm' ∧
        ∀ k ∈ columns, cellRead vm' r.code k = nextVal rows bz vm k ast) →
      agreeNonCalc rows bz vm (runFixpointAux rows columns bz n vm') ∧
        ∀ k ∈ columns,
          cellRead (runFixpointAux rows columns bz n vm') r.code k =
            nextVal rows bz vm k ast := by
    intro n
    induction n with
    | zero => intro vm' h; exact h
    | succ n ih =>
      intro vm' h
      by_cases hch : (passOnce rows columns bz vm').2
      · rw [runFixpointAux_go rows columns bz n vm' hch]
        exact ih _ (hstep vm' h.1)
      · rw [runFixpointAux_stop rows columns bz n vm' (by simpa using hch)]
        exact hstep vm' h.1
  unfold runFixpoint
  by_cases hch : (passOnce rows columns bz vm).2
  · rw [runFixpointAux_go rows columns bz 5 vm hch]
    exact haux 5 _ (hstep vm (agreeNonCalc_refl rows bz vm))
  · rw [runFixpointAux_stop rows columns bz 5 vm (by simpa using hch)]
    exact hstep vm (agreeNonCalc_refl rows bz vm)

theorem calcStaticB_spec {rows : List Row} (h : calcStaticB rows = true) :
    calcStatic rows := by
  intro r hr ast hform
  have := (List.all_eq_true.mp h) r hr
  rw [hform] at this
  simp only [Bool.and_eq_true, List.all_eq_true] at this
  refine ⟨this.1, fun c hc => ?_⟩
  have h2 := this.2 c hc
  simpa using h2

/-- C3: for every set of calc-row formulas (including mutually
referencing, genuinely cyclic ones), formula evaluation terminates
without crashing after at most 6 fixpoint passes over all calc rows
(`runFixpoint` equals some `k ≤ 6` unconditional passes; it is a total
function, so no run crashes), stops early as soon as a pass changes no
cell value, and when every calc formula is built from literals, row
references, unary/binary operators and identifiers and references only
non-calc rows (the spec's "referencing only plain data rows", e.g.
`[B]+1`), the loop converges in one pass. -/
theorem C3_fixpoint_termination (rows : List Row) (columns : List String)
    (bz : Bool) (vm : VMap) :
    (∃ k ≤ 6, runFixpoint rows columns bz vm =
      passIter rows columns bz k vm) ∧
    ((passOnce rows columns bz vm).2 = false →
      runFixpoint rows columns bz vm = (passOnce rows columns bz vm).1) ∧
    (calcStaticB rows = true → calcNodup rows →
      runFixpoint rows columns bz vm = (passOnce rows columns bz vm).1) := by
  refine ⟨runFixpointAux_iter rows columns bz 6 vm, ?_, ?_⟩
  · intro h
    exact runFixpointAux_stop rows columns bz 5 vm h
  · intro hstatic hnodup
    exact runFixpoint_onePass rows columns bz vm (calcStaticB_spec hstatic)
      hnodup

theorem C3_fixpoint_termination_witness :
    calcStaticB fixRows = true ∧ calcNodup fixRows ∧
      runFixpoint fixRows ["k"] false fixVm =
        (passOnce fixRows ["k"] false fixVm).1 :=
  ⟨by decide, by unfold calcNodup; decide,
    (C3_fixpoint_termination fixRows ["k"] false fixVm).2.2 (by decide)
      (by unfold calcNodup; decide)⟩

example :
    cellRead (runFixpoint fixRows ["k"] false fixVm) "A" "k" = some 6 := by
  decide

/-- The spec's cyclic example: `A = "[B]+1"`, `B = "[A]+1"` must stop
within the pass budget (and does not crash, `runFixpoint` being total). -/
example :
    ∃ k ≤ 6,
      runFixpoint
          [ { code := "B", type := "calc",
              formula := some (some (Ast.bin "+" (Ast.ref "A") (Ast.num 1))) },
            { code := "A", type := "calc",
              formula := some (some (Ast.bin "+" (Ast.ref "B") (Ast.num 1))) } ]
          ["k"] false [] =
        passIter
          [ { code := "B", type := "calc",
              formula := some (some (Ast.bin "+" (Ast.ref "A") (Ast.num 1))) },
            { code := "A", type := "calc",
              formula := some (some (Ast.bin "+" (Ast.ref "B") (Ast.num 1))) } ]
          ["k"] false k [] := by
  refine ⟨6, le_refl 6, ?_⟩
  decide

/-! ## Auto-aggregation lemmas -/
theorem childSum_congr {bz : Bool} {r : Row} {vm vm' : VMap} {k : String}
    (h : ∀ c ∈ r.children, cellRead vm c k = cellRead vm' c k) :
    childSum bz r vm k = childSum bz r vm' k := by
  unfold childSum
  have : r.children.filterMap (fun c => cellRead vm c k) =
      r.children.filterMap (fun c => cellRead vm' c k) := by
    apply List.filterMap_congr
    intro c hc
    rw [h c hc]
  rw [this]

theorem autoAggCol_other (bz : Bool) (r : Row) (vm2 : VMap) (k : String)
    {c2 k2 : String} (h : c2 ≠ r.code) :
    cellGet (autoAggCol bz r vm2 k) c2 k2 = cellGet vm2 c2 k2 := by
  unfold autoAggCol
  cases cellRead vm2 r.code k with
  | some v => rfl
  | none => exact cellGet_set_ne vm2 _ (Or.inl h)

theorem autoAggStep_other (columns : List String) (bz : Bool) (vm : VMap)
    (r : Row) {c2 k2 : String} (h : c2 ≠ r.code) :
    cellGet (autoAggStep columns bz vm r) c2 k2 = cellGet vm c2 k2 := by
  unfold autoAggStep
  split
  · rfl
  · induction columns generalizing vm with
    | nil => rfl
    | cons k0 rest ih =>
      simp only [List.foldl_cons]
      rw [ih (autoAggCol bz r vm k0), autoAggCol_other bz r vm k0 h]

theorem autoAggRows_other (columns : List String) (bz : Bool) :
    ∀ (P : List Row) (vm : VMap) (c k : String),
      (∀ r ∈ P, r.code ≠ c) →
      cellGet (P.foldl (autoAggStep columns bz) vm) c k = cellGet vm c k := by
  intro P
  induction P with
  | nil => intro vm c k _; rfl
  | cons r0 rest ih =>
    intro vm c k hc
    simp only [List.foldl_cons]
    rw [ih _ c k (fun r hr => hc r (by simp [hr]))]
    exact autoAggStep_other columns bz vm r0 (Ne.symm (hc r0 (by simp)))

theorem autoAggCols (bz : Bool) (r : Row) (hself : r.code ∉ r.children) :
    ∀ (cols : List String) (vm2 : VMap),
      (∀ k, cellRead (cols.foldl (autoAggCol bz r) vm2) r.code k =
        if k ∈ cols then
          (match cellRead vm2 r.code k with
           | some v => some v
           | none => childSum bz r vm2 k)
        else cellRead vm2 r.code k) ∧
      (∀ c k, c ≠ r.code →
        cellGet (cols.foldl (autoAggCol bz r) vm2) c k = cellGet vm2 c k) := by
  intro cols
  induction cols with
  | nil => intro vm2; exact ⟨by simp, by simp⟩
  | cons k0 rest ih =>
    intro vm2
    obtain ⟨ihRead, ihOther⟩ := ih (autoAggCol bz r vm2 k0)
    have hother : ∀ c k, c ≠ r.code →
        cellGet (autoAggCol bz r vm2 k0) c k = cellGet vm2 c k :=
      fun c k hc => autoAggCol_other bz r vm2 k0 hc
    have hchildren : ∀ c ∈ r.children, ∀ k,
        cellRead (autoAggCol bz r vm2 k0) c k = cellRead vm2 c k := by
      intro c hc k
      apply cellRead_congr
      exact hother c k (fun he => hself (he ▸ hc))
    have hsum : childSum bz r (autoAggCol bz r vm2 k0) k0 =
        childSum bz r vm2 k0 :=
      childSum_congr (fun c hc => hchildren c hc k0)
    have hstep0 : cellRead (autoAggCol bz r vm2 k0) r.code k0 =
        (match cellRead vm2 r.code k0 with
         | some v => some v
         | none => childSum bz r vm2 k0) := by
      unfold autoAggCol
      cases h0 : cellRead vm2 r.code k0 with
      | some v => simp [h0]
      | none => simp [h0, cellRead, cellGet_set_self]
    have hstepNe : ∀ k, k ≠ k0 →
        cellRead (autoAggCol bz r vm2 k0) r.code k =
          cellRead vm2 r.code k := by
      intro k hk
      unfold autoAggCol
      cases h0 : cellRead vm2 r.code k0 with
      | some v => rfl
      | none => exact cellRead_set_ne vm2 _ (Or.inr hk)
    simp only [List.foldl_cons]
    refine ⟨?_, ?_⟩
    · intro k
      by_cases hmem : k ∈ rest
      · rw [ihRead k, if_pos hmem, if_pos (by simp [hmem])]
        by_cases hk0 : k = k0
        · subst hk0
          rw [hstep0]
          cases h0 : cellRead vm2 r.code k with
          | some v => rfl
          | none =>
            simp only [h0]
            have hcs : childSum bz r (autoAggCol bz r vm2 k) k =
                childSum bz r vm2 k :=
              childSum_congr (fun c hc => hchildren c hc k)
            cases h1 : childSum bz r vm2 k with
            | some v =>
              simp [h1]
            | none =>
              simp [h1, hcs, h1]
        · rw [hstepNe k hk0]
          have hcs : childSum bz r (autoAggCol bz r vm2 k0) k =
              childSum bz r vm2 k :=
            childSum_congr (fun c hc => hchildren c hc k)
          cases cellRead vm2 r.code k with
          | some v => rfl
          | none => exact hcs
      · rw [ihRead k, if_neg hmem]
        by_cases hk0 : k = k0
        · subst hk0
          rw [if_pos (by simp), hstep0]
        · rw [if_neg (by simp [hk0, hmem]), hstepNe k hk0]
    · intro c k hc
      rw [ihOther c k hc, hother c k hc]

/-- C4: when `autoAggregateParents` is on, for every internal row (has
children, not blank, not calc) and every column where that row has no
explicit value, the pass sets its value to the sum of its children's
present values for that column (`null`, or `0` when blank-as-zero, when
no child has a value), and it never overwrites a cell that already has
an explicit or previously-aggregated value.  The processing order is the
reversed flat pre-order list; the hypotheses say that `r` occurs there
once (`hP1`/`hP2`), that its children are not re-processed after it
(`hchild` — automatic in a pre-order forest, where children precede
their parent in the reversed list), and that `r` is not its own child. -/
theorem C4_autoAggregate_parents (columns : List String) (bz : Bool)
    (flat P1 P2 : List Row) (r : Row) (vm : VMap) (k : String)
    (hsplit : flat.reverse = P1 ++ r :: P2)
    (hP1 : ∀ r2 ∈ P1, r2.code ≠ r.code)
    (hP2 : ∀ r2 ∈ P2, r2.code ≠ r.code)
    (hchild : ∀ c ∈ r.children, ∀ r2 ∈ P2, r2.code ≠ c)
    (hself : r.code ∉ r.children)
    (hq1 : r.type ≠ "blank") (hq2 : r.type ≠ "calc")
    (hq3 : r.children ≠ []) (hk : k ∈ columns) :
    (cellRead vm r.code k = none →
      cellRead (autoAggPass columns bz flat vm) r.code k =
        childSum bz r (autoAggPass columns bz flat vm) k) ∧
    (∀ v, cellRead vm r.code k = some v →
      cellRead (autoAggPass columns bz flat vm) r.code k = some v) := by
  unfold autoAggPass
  rw [hsplit, List.foldl_append, List.foldl_cons]
  set vmA := P1.foldl (autoAggStep columns bz) vm with hvmA
  have hQ : ¬(r.type = "blank" ∨ r.type = "calc" ∨ r.children.isEmpty) := by
    push_neg
    refine ⟨hq1, hq2, ?_⟩
    simp [hq3]
  have hStepEq : autoAggStep columns bz vmA r =
      columns.foldl (autoAggCol bz r) vmA := by
    unfold autoAggStep
    rw [if_neg hQ]
  obtain ⟨aRead, aOther⟩ := autoAggCols bz r hself columns vmA
  have hReadA : cellRead vmA r.code k = cellRead vm r.code k :=
    cellRead_congr (autoAggRows_other columns bz P1 vm r.code k hP1)
  have hReadFinal :
      cellRead (P2.foldl (autoAggStep columns bz)
          (autoAggStep columns bz vmA r)) r.code k =
        cellRead (autoAggStep columns bz vmA r) r.code k :=
    cellRead_congr (autoAggRows_other columns bz P2 _ r.code k hP2)
  have hChildFinal : ∀ c ∈ r.children,
      cellRead (P2.foldl (autoAggStep columns bz)
          (autoAggStep columns bz vmA r)) c k = cellRead vmA c k := by
    intro c hc
    have hcr : c ≠ r.code := fun he => hself (he ▸ hc)
    have h1 : cellGet (P2.foldl (autoAggStep columns bz)
          (autoAggStep columns bz vmA r)) c k =
        cellGet (autoAggStep columns bz vmA r) c k :=
      autoAggRows_other columns bz P2 _ c k (hchild c hc)
    have h2 : cellGet (autoAggStep columns bz vmA r) c k =
        cellGet vmA c k := by
      rw [hStepEq]
      exact aOther c k hcr
    exact cellRead_congr (h1.trans h2)
  have hSumFinal : childSum bz r (P2.foldl (autoAggStep columns bz)
        (autoAggStep columns bz vmA r)) k = childSum bz r vmA k :=
    childSum_congr (fun c hc => hChildFinal c hc)
  constructor
  · intro hnone
    rw [hSumFinal, hReadFinal, hStepEq, aRead k, if_pos hk]
    have h0 : cellRead vmA r.code k = none := by rw [hReadA, hnone]
    simp [h0]
  · intro v hv
    rw [hReadFinal, hStepEq, aRead k, if_pos hk]
    have h0 : cellRead vmA r.code k = some v := by rw [hReadA, hv]
    simp [h0]

theorem C4_autoAggregate_parents_witness :
    cellRead aggVm "P" "k" = none ∧
      cellRead (autoAggPass ["k"] false aggFlat aggVm) "P" "k" =
        childSum false aggP (autoAggPass ["k"] false aggFlat aggVm) "k" :=
  ⟨by decide,
    (C4_autoAggregate_parents ["k"] false aggFlat
        [{ code := "B" }, { code := "A" }] [] aggP aggVm "k" rfl
        (by decide) (by decide) (by decide) (by decide) (by decide)
        (by decide) (by decide) (by decide)).1 (by decide)⟩

example :
    cellRead (autoAggPass ["k"] false aggFlat aggVm) "P" "k" = some 8 := by
  decide

example :
    cellRead (autoAggPass ["k"] true aggFlat
        [("A", [("k", none)]), ("B", [("k", none)])]) "P" "k" = some 0 := by
  decide

/-! ## Write-locality of the remaining passes -/
/-- Pre-filling only materialises `null`s: no read changes. -/
theorem prefill_read (rows : List Row) (columns : List String) :
    ∀ (vm : VMap) (c k : String),
      cellRead (prefill rows columns vm) c k = cellRead vm c k := by
  have hcol : ∀ (cols : List String) (vm : VMap) (r : Row) (c k : String),
      cellRead (cols.foldl
          (fun vm4 k2 =>
            match cellGet vm4 r.code k2 with
            | some _ => vm4
            | none => cellSet vm4 r.code k2 none)
          vm) c k = cellRead vm c k := by
    intro cols
    induction cols with
    | nil => intro vm r c k; rfl
    | cons k0 rest ih =>
      intro vm r c k
      simp only [List.foldl_cons]
      rw [ih]
      cases h0 : cellGet vm r.code k0 with
      | some v => rfl
      | none =>
        by_cases hck : c = r.code ∧ k = k0
        · obtain ⟨hc, hk⟩ := hck
          subst hc; subst hk
          simp [cellRead, cellGet_set_self, h0]
        · exact cellRead_set_ne vm none (by tauto)
  have hensure : ∀ (vm : VMap) (code c k : String),
      cellRead (if (alGet vm code).isSome then vm else alSet vm code []) c k =
        cellRead vm c k := by
    intro vm code c k
    by_cases h : (alGet vm code).isSome
    · rw [if_pos h]
    · rw [if_neg h]
      by_cases hc : c = code
      · subst hc
        simp only [cellRead, cellGet, alGet_set_self]
        rw [Option.not_isSome_iff_eq_none] at h
        simp [h, alGet]
      · simp only [cellRead, cellGet, alGet_set_ne vm _ hc]
  intro vm c k
  unfold prefill
  induction rows generalizing vm with
  | nil => rfl
  | cons r0 rest ih =>
    simp only [List.foldl_cons]
    rw [ih, hcol, hensure]

/-- The auto-aggregation pass leaves a code untouched when every flat row
carrying it is skipped (blank, calc, or childless). -/
theorem autoAggPass_locality (columns : List String) (bz : Bool)
    (flat : List Row) (vm : VMap) (c k : String)
    (h : ∀ r2 ∈ flat, r2.code = c →
      (r2.type = "blank" ∨ r2.type = "calc" ∨ r2.children.isEmpty = true)) :
    cellGet (autoAggPass columns bz flat vm) c k = cellGet vm c k := by
  unfold autoAggPass
  have h2 : ∀ r2 ∈ flat.reverse, r2.code = c →
      (r2.type = "blank" ∨ r2.type = "calc" ∨ r2.children.isEmpty = true) := by
    intro r2 hr2
    exact h r2 (List.mem_reverse.mp hr2)
  generalize flat.reverse = P at h2
  induction P generalizing vm with
  | nil => rfl
  | cons r0 rest ih =>
    simp only [List.foldl_cons]
    rw [ih _ (fun r2 hr2 => h2 r2 (by simp [hr2]))]
    by_cases hc0 : r0.code = c
    · unfold autoAggStep
      rcases h2 r0 (by simp) hc0 with hb | hb | hb <;> simp [hb]
    · exact autoAggStep_other columns bz vm r0 (Ne.symm hc0)

theorem ne_subCode_of_not_endsWithSub {c : String}
    (h : endsWithSub c = false) (x : String) :
    c ≠ x ++ "||__subtotal" := by
  intro he
  rw [he] at h
  unfold endsWithSub at h
  have h2 : (x ++ "||__subtotal").toList =
      x.toList ++ ("||__subtotal").toList := rfl
  rw [h2] at h
  have h3 : ("||__subtotal".toList).isSuffixOf
      (x.toList ++ "||__subtotal".toList) = true := by
    rw [List.isSuffixOf_iff_suffix]
    exact List.suffix_append x.toList _
  rw [h3] at h
  exact Bool.noConfusion h

theorem pushSubtotalFor_other (columns : List String) (bz : Bool) (r : Row)
    (st : List Row × VMap) {c2 k2 : String}
    (h : c2 ≠ r.code ++ "||__subtotal") :
    cellGet (pushSubtotalFor columns bz r st).2 c2 k2 = cellGet st.2 c2 k2 := by
  unfold pushSubtotalFor
  split
  · rfl
  · show cellGet (columns.foldl (subCol bz r) st.2) c2 k2 = _
    induction columns generalizing st with
    | nil => rfl
    | cons k0 rest ih =>
      simp only [List.foldl_cons]
      have := ih (st.1, subCol bz r st.2 k0)
      simp only at this
      rw [this]
      exact cellGet_set_ne st.2 _ (Or.inl h)

theorem visitSub_vm_locality (rows : List Row) (columns : List String)
    (bz : Bool) {c2 k2 : String} (h : endsWithSub c2 = false) :
    ∀ (fuel : Nat) (code : String) (st : List Row × VMap),
      cellGet (visitSub rows columns bz fuel code st).2 c2 k2 =
        cellGet st.2 c2 k2 := by
  intro fuel
  induction fuel with
  | zero => intro code st; rfl
  | succ fuel ih =>
    intro code st
    show cellGet
        (match rowLookup rows code with
         | none => st
         | some r =>
           pushSubtotalFor columns bz r
             (r.children.foldl
               (fun s c => visitSub rows columns bz fuel c s)
               (st.1 ++ [r], st.2))).2 c2 k2 = cellGet st.2 c2 k2
    cases hlook : rowLookup rows code with
    | none => rfl
    | some r =>
      have hfold : ∀ (cs : List String) (st2 : List Row × VMap),
          cellGet ((cs.foldl
              (fun s c => visitSub rows columns bz fuel c s) st2)).2 c2 k2 =
            cellGet st2.2 c2 k2 := by
        intro cs
        induction cs with
        | nil => intro st2; rfl
        | cons c0 crest ih2 =>
          intro st2
          simp only [List.foldl_cons]
          rw [ih2, ih c0 st2]
      rw [pushSubtotalFor_other columns bz r _
        (ne_subCode_of_not_endsWithSub h r.code)]
      rw [hfold]

theorem subtotalForest_locality (rows : List Row) (columns : List String)
    (bz : Bool) (roots : List String) (fuel : Nat) (vm : VMap)
    {c2 k2 : String} (h : endsWithSub c2 = false) :
    cellGet (subtotalForest rows columns bz roots fuel vm).2 c2 k2 =
      cellGet vm c2 k2 := by
  unfold subtotalForest
  have hgen : ∀ (rts : List String) (st : List Row × VMap),
      cellGet ((rts.foldl
          (fun s c => visitSub rows columns bz fuel c s) st)).2 c2 k2 =
        cellGet st.2 c2 k2 := by
    intro rts
    induction rts with
    | nil => intro st; rfl
    | cons r0 rrest ih =>
      intro st
      simp only [List.foldl_cons]
      rw [ih, visitSub_vm_locality rows columns bz h fuel r0 st]
  exact hgen roots ([], vm)

theorem gtPass_locality (columns : List String) (bz : Bool)
    (flat : List Row) (vm : VMap) {c2 k2 : String}
    (h : c2 ≠ "__grand_total") :
    cellGet (gtPass columns bz flat vm).2 c2 k2 = cellGet vm c2 k2 := by
  unfold gtPass
  show cellGet (columns.foldl _ vm) c2 k2 = cellGet vm c2 k2
  induction columns generalizing vm with
  | nil => rfl
  | cons k0 rest ih =>
    simp only [List.foldl_cons]
    rw [ih]
    exact cellGet_set_ne vm _ (Or.inl h)

/-- C1 (amended): in the default-path rebuild the formula fixpoint runs
*before* parent auto-aggregation (`buildCore` is CellAggregator →
FormulaEngine fixpoint → AutoAggregator → TotalsInjector); consequently a
calc-row formula `[p]` that references a row with no explicit aggregated
value reads the pre-aggregation blank — with blank-as-zero off its cell
is `null` in the finalized model — and not the auto-aggregated sum the
spec's pipeline order would produce.  `hflat` says no (other) qualifying
data row shares the calc row's code; `hsub`/`hgt` keep the synthetic
total codes away from it. -/
theorem C1_fixpoint_before_autoAggregate (cfg : Cfg) (rows : List Row)
    (roots : List String) (columns : List String)
    (triples : List (String × String × JVal)) (r : Row) (p k : String)
    (hbz : cfg.blankAsZero = false)
    (hr : r ∈ calcRowsOf rows)
    (hform : r.formula = some (some (Ast.ref p)))
    (hstatic : calcStaticB rows = true)
    (hnodup : calcNodup rows)
    (hk : k ∈ columns)
    (hnoval : cellRead (addCells [] triples) p k = none)
    (hflat : ∀ r2 ∈ flattenForest rows roots (rows.length + 1),
      r2.code = r.code →
        (r2.type = "blank" ∨ r2.type = "calc" ∨ r2.children.isEmpty = true))
    (hsub : endsWithSub r.code = false)
    (hgt : r.code ≠ "__grand_total") :
    cellRead (buildCore cfg rows roots columns triples).2 r.code k = none := by
  have hchain : buildCore cfg rows roots columns triples =
      (if cfg.showGrandTotal then
        gtPass columns cfg.blankAsZero
          (if cfg.showSubtotals then
            subtotalForest rows columns cfg.blankAsZero roots
              (rows.length + 1)
              (if cfg.autoAggregateParents then
                autoAggPass columns cfg.blankAsZero
                  (flattenForest rows roots (rows.length + 1))
                  (runFixpoint rows columns cfg.blankAsZero
                    (prefill rows columns (addCells [] triples)))
              else
                runFixpoint rows columns cfg.blankAsZero
                  (prefill rows columns (addCells [] triples)))
          else
            (flattenForest rows roots (rows.length + 1),
              if cfg.autoAggregateParents then
                autoAggPass columns cfg.blankAsZero
                  (flattenForest rows roots (rows.length + 1))
                  (runFixpoint rows columns cfg.blankAsZero
                    (prefill rows columns (addCells [] triples)))
              else
                runFixpoint rows columns cfg.blankAsZero
                  (prefill rows columns (addCells [] triples)))).1
          (if cfg.showSubtotals then
            subtotalForest rows columns cfg.blankAsZero roots
              (rows.length + 1)
              (if cfg.autoAggregateParents then
                autoAggPass columns cfg.blankAsZero
                  (flattenForest rows roots (rows.length + 1))
                  (runFixpoint rows columns cfg.blankAsZero
                    (prefill rows columns (addCells [] triples)))
              else
                runFixpoint rows columns cfg.blankAsZero
                  (prefill rows columns (addCells [] triples)))
          else
            (flattenForest rows roots (rows.length + 1),
              if cfg.autoAggregateParents then
                autoAggPass columns cfg.blankAsZero
                  (flattenForest rows roots (rows.length + 1))
                  (runFixpoint rows columns cfg.blankAsZero
                    (prefill rows columns (addCells [] triples)))
              else
                runFixpoint rows columns cfg.blankAsZero
                  (prefill rows columns (addCells [] triples)))).2
      else
        (if cfg.showSubtotals then
          subtotalForest rows columns cfg.blankAsZero roots (rows.length + 1)
            (if cfg.autoAggregateParents then
              autoAggPass columns cfg.blankAsZero
                (flattenForest rows roots (rows.length + 1))
                (runFixpoint rows columns cfg.blankAsZero
                  (prefill rows columns (addCells [] triples)))
            else
              runFixpoint rows columns cfg.blankAsZero
                (prefill rows columns (addCells [] triples)))
        else
          (flattenForest rows roots (rows.length + 1),
            if cfg.autoAggregateParents then
              autoAggPass columns cfg.blankAsZero
                (flattenForest rows roots (rows.length + 1))
                (runFixpoint rows columns cfg.blankAsZero
                  (prefill rows columns (addCells [] triples)))
            else
              runFixpoint rows columns cfg.blankAsZero
                (prefill rows columns (addCells [] triples))))) := rfl
  set vm1 := prefill rows columns (addCells [] triples) with hvm1
  have h1 : cellRead vm1 p k = none := by
    rw [hvm1, prefill_read]
    exact hnoval
  have hcs : calcStatic rows := calcStaticB_spec hstatic
  obtain ⟨hAgree, hVal⟩ := runFixpoint_static_row rows columns
    cfg.blankAsZero vm1 hcs hnodup r hr (Ast.ref p) hform
  have h2 : cellRead (runFixpoint rows columns cfg.blankAsZero vm1)
      r.code k = none := by
    rw [hVal k hk]
    simp [nextVal, evalAst, getCell, h1, hbz, ofCell, toNumber]
  set vm2 := runFixpoint rows columns cfg.blankAsZero vm1 with hvm2
  have h3 : cellRead
      (if cfg.autoAggregateParents then
        autoAggPass columns cfg.blankAsZero
          (flattenForest rows roots (rows.length + 1)) vm2
      else vm2) r.code k = none := by
    by_cases hauto : cfg.autoAggregateParents
    · rw [if_pos hauto]
      rw [cellRead_congr (autoAggPass_locality columns cfg.blankAsZero
        (flattenForest rows roots (rows.length + 1)) vm2 r.code k hflat)]
      exact h2
    · rw [if_neg hauto]
      exact h2
  set vm3 := (if cfg.autoAggregateParents then
      autoAggPass columns cfg.blankAsZero
        (flattenForest rows roots (rows.length + 1)) vm2
    else vm2) with hvm3
  have h4 : cellRead
      (if cfg.showSubtotals then
        subtotalForest rows columns cfg.blankAsZero roots
          (rows.length + 1) vm3
      else (flattenForest rows roots (rows.length + 1), vm3)).2
      r.code k = none := by
    by_cases hst : cfg.showSubtotals
    · rw [if_pos hst]
      rw [cellRead_congr (subtotalForest_locality rows columns
        cfg.blankAsZero roots (rows.length + 1) vm3 hsub)]
      exact h3
    · rw [if_neg hst]
      exact h3
  rw [hchain]
  by_cases hgtb : cfg.showGrandTotal
  · rw [if_pos hgtb]
    rw [cellRead_congr (gtPass_locality columns cfg.blankAsZero _ _ hgt)]
    exact h4
  · rw [if_neg hgtb]
    exact h4

/-- C1 counterexample: the source pipeline runs the formula fixpoint
before auto-aggregation, so calc row `C = [P]` reads the pre-aggregation
blank and ends `null`, while the spec-ordered pipeline (AutoAggregator
before FormulaEngine) gives it `P`'s aggregated 5 — the two rebuilds
produce different value maps, refuting the claimed pipeline equality. -/
theorem C1_pipeline_order_counterexample :
    cellRead (buildCore c1Cfg c1Rows ["P", "C"] ["k"] c1Triples).2
        "C" "k" = none ∧
      cellRead (specOrderedBuild c1Cfg c1Rows ["P", "C"] ["k"] c1Triples).2
        "C" "k" = some 5 ∧
      (buildCore c1Cfg c1Rows ["P", "C"] ["k"] c1Triples).2 ≠
        (specOrderedBuild c1Cfg c1Rows ["P", "C"] ["k"] c1Triples).2 :=
  ⟨by decide, by decide, by decide⟩

theorem C1_fixpoint_before_autoAggregate_witness :
    cellRead (buildCore c1Cfg c1Rows ["P", "C"] ["k"] c1Triples).2
      "C" "k" = none :=
  C1_fixpoint_before_autoAggregate c1Cfg c1Rows ["P", "C"] ["k"] c1Triples
    { code := "C", type := "calc", formula := some (some (Ast.ref "P")) }
    "P" "k" (by decide) (by decide) rfl (by decide)
    (by unfold calcNodup; decide) (by decide) (by decide) (by decide)
    (by decide) (by decide)

/-! ## Presence (totality) of the value map -/
theorem foldl_pres {α β : Type} (f : α → β → α) (P : α → Prop)
    (h : ∀ a b, P a → P (f a b)) :
    ∀ (l : List β) (a : α), P a → P (l.foldl f a) := by
  intro l
  induction l with
  | nil => intro a ha; exact ha
  | cons b tl ih =>
    intro a ha
    exact ih (f a b) (h a b ha)

theorem passCol_isSome (rows : List Row) (bz : Bool) (r : Row)
    (astO : Option Ast) (st : VMap × Bool) (k : String) (c2 k2 : String)
    (h : (cellGet st.1 c2 k2).isSome) :
    (cellGet (passCol rows bz r astO st k).1 c2 k2).isSome := by
  cases astO with
  | none => exact cellGet_set_isSome st.1 r.code k c2 k2 none h
  | some ast =>
    simp only [passCol]
    by_cases hcond : cellRead st.1 r.code k ≠ nextVal rows bz st.1 k ast
    · rw [if_pos hcond]
      exact cellGet_set_isSome st.1 r.code k c2 k2 _ h
    · rw [if_neg hcond]
      exact h

theorem passOnce_isSome (rows : List Row) (columns : List String)
    (bz : Bool) (vm : VMap) (c2 k2 : String)
    (h : (cellGet vm c2 k2).isSome) :
    (cellGet (passOnce rows columns bz vm).1 c2 k2).isSome := by
  unfold passOnce
  exact foldl_pres (passStep rows columns bz)
    (fun st => (cellGet st.1 c2 k2).isSome)
    (fun st r hst => by
      unfold passStep
      cases hf : r.formula with
      | none => exact hst
      | some astO =>
        exact foldl_pres (passCol rows bz r astO)
          (fun st2 => (cellGet st2.1 c2 k2).isSome)
          (fun st2 k hst2 => passCol_isSome rows bz r astO st2 k c2 k2 hst2)
          columns st hst)
    (calcRowsOf rows) (vm, false) h

theorem runFixpoint_isSome (rows : List Row) (columns : List String)
    (bz : Bool) (vm : VMap) (c2 k2 : String)
    (h : (cellGet vm c2 k2).isSome) :
    (cellGet (runFixpoint rows columns bz vm) c2 k2).isSome := by
  unfold runFixpoint
  have : ∀ (n : Nat) (vm' : VMap), (cellGet vm' c2 k2).isSome →
      (cellGet (runFixpointAux rows columns bz n vm') c2 k2).isSome := by
    intro n
    induction n with
    | zero => intro vm' h'; exact h'
    | succ n ih =>
      intro vm' h'
      by_cases hch : (passOnce rows columns bz vm').2
      · rw [runFixpointAux_go rows columns bz n vm' hch]
        exact ih _ (passOnce_isSome rows columns bz vm' c2 k2 h')
      · rw [runFixpointAux_stop rows columns bz n vm' (by simpa using hch)]
        exact passOnce_isSome rows columns bz vm' c2 k2 h'
  exact this 6 vm h

theorem autoAggPass_isSome (columns : List String) (bz : Bool)
    (flat : List Row) (vm : VMap) (c2 k2 : String)
    (h : (cellGet vm c2 k2).isSome) :
    (cellGet (autoAggPass columns bz flat vm) c2 k2).isSome := by
  unfold autoAggPass
  refine foldl_pres (autoAggStep columns bz)
    (fun vm' => (cellGet vm' c2 k2).isSome) ?_ flat.reverse vm h
  intro vm' r hvm
  unfold autoAggStep
  split
  · exact hvm
  · refine foldl_pres (autoAggCol bz r)
      (fun vm'' => (cellGet vm'' c2 k2).isSome) ?_ columns vm' hvm
    intro vm'' k hvm2
    unfold autoAggCol
    cases cellRead vm'' r.code k with
    | some v => exact hvm2
    | none => exact cellGet_set_isSome vm'' r.code k c2 k2 _ hvm2

theorem visitSub_isSome (rows : List Row) (columns : List String)
    (bz : Bool) (c2 k2 : String) :
    ∀ (fuel : Nat) (code : String) (st : List Row × VMap),
      (cellGet st.2 c2 k2).isSome →
      (cellGet (visitSub rows columns bz fuel code st).2 c2 k2).isSome := by
  intro fuel
  induction fuel with
  | zero => intro code st h; exact h
  | succ fuel ih =>
    intro code st h
    show (cellGet
        (match rowLookup rows code with
         | none => st
         | some r =>
           pushSubtotalFor columns bz r
             (r.children.foldl
               (fun s c => visitSub rows columns bz fuel c s)
               (st.1 ++ [r], st.2))).2 c2 k2).isSome
    cases rowLookup rows code with
    | none => exact h
    | some r =>
      have h2 : (cellGet ((r.children.foldl
          (fun s c => visitSub rows columns bz fuel c s)
          (st.1 ++ [r], st.2))).2 c2 k2).isSome :=
        foldl_pres (fun s c => visitSub rows columns bz fuel c s)
          (fun s => (cellGet s.2 c2 k2).isSome)
          (fun s c hs => ih c s hs) r.children (st.1 ++ [r], st.2) h
      show (cellGet (pushSubtotalFor columns bz r
          (r.children.foldl (fun s c => visitSub rows columns bz fuel c s)
            (st.1 ++ [r], st.2))).2 c2 k2).isSome
      unfold pushSubtotalFor
      by_cases hq : r.rowLevel = some (-1) ∨ r.type = "blank"
          ∨ r.type = "calc" ∨ r.children.isEmpty
      · rw [if_pos hq]
        exact h2
      · rw [if_neg hq]
        refine foldl_pres (subCol bz r)
          (fun vm' => (cellGet vm' c2 k2).isSome) ?_ columns _ h2
        intro vm' k hvm
        exact cellGet_set_isSome vm' _ k c2 k2 _ hvm

theorem subtotalForest_isSome (rows : List Row) (columns : List String)
    (bz : Bool) (roots : List String) (fuel : Nat) (vm : VMap)
    (c2 k2 : String) (h : (cellGet vm c2 k2).isSome) :
    (cellGet (subtotalForest rows columns bz roots fuel vm).2 c2 k2).isSome := by
  unfold subtotalForest
  exact foldl_pres (fun s c => visitSub rows columns bz fuel c s)
    (fun s => (cellGet s.2 c2 k2).isSome)
    (fun s c hs => visitSub_isSome rows columns bz c2 k2 fuel c s hs)
    roots ([], vm) h

theorem gtPass_isSome (columns : List String) (bz : Bool) (flat : List Row)
    (vm : VMap) (c2 k2 : String) (h : (cellGet vm c2 k2).isSome) :
    (cellGet (gtPass columns bz flat vm).2 c2 k2).isSome := by
  unfold gtPass
  refine foldl_pres (gtCol bz _) (fun vm' => (cellGet vm' c2 k2).isSome)
    ?_ columns vm h
  intro vm' k hvm
  exact cellGet_set_isSome vm' _ k c2 k2 _ hvm

/-- The `null` pre-fill makes the map total over `rows × columns`. -/
theorem prefill_present (rows : List Row) (columns : List String)
    (vm : VMap) (r : Row) (hr : r ∈ rows) (k : String) (hk : k ∈ columns) :
    (cellGet (prefill rows columns vm) r.code k).isSome := by
  have hcolstep : ∀ (vm2 : VMap) (code k2 : String) (c2 kx : String),
      (cellGet vm2 c2 kx).isSome →
      (cellGet
        (match cellGet vm2 code k2 with
         | some _ => vm2
         | none => cellSet vm2 code k2 none) c2 kx).isSome := by
    intro vm2 code k2 c2 kx h
    cases cellGet vm2 code k2 with
    | some v => exact h
    | none => exact cellGet_set_isSome vm2 code k2 c2 kx none h
  have hcols : ∀ (cols : List String) (vm2 : VMap) (code : String),
      ∀ k2 ∈ cols,
      (cellGet (cols.foldl
          (fun vm4 kc =>
            match cellGet vm4 code kc with
            | some _ => vm4
            | none => cellSet vm4 code kc none) vm2) code k2).isSome := by
    intro cols
    induction cols with
    | nil => intro vm2 code k2 hk2; simp at hk2
    | cons k0 rest ih =>
      intro vm2 code k2 hk2
      simp only [List.foldl_cons]
      rcases List.mem_cons.mp hk2 with he | hmem
      · subst he
        refine foldl_pres _ (fun vm' => (cellGet vm' code k2).isSome)
          (fun vm' kc h => hcolstep vm' code kc code k2 h) rest _ ?_
        cases h0 : cellGet vm2 code k2 with
        | some v => simp [h0]
        | none => simp [h0, cellGet_set_self]
      · exact ih _ code k2 hmem
  have hrowstep_pres : ∀ (vm2 : VMap) (r2 : Row) (c2 kx : String),
      (cellGet vm2 c2 kx).isSome →
      (cellGet
        (columns.foldl
          (fun vm4 kc =>
            match cellGet vm4 r2.code kc with
            | some _ => vm4
            | none => cellSet vm4 r2.code kc none)
          (if (alGet vm2 r2.code).isSome then vm2
           else alSet vm2 r2.code [])) c2 kx).isSome := by
    intro vm2 r2 c2 kx h
    refine foldl_pres _ (fun vm' => (cellGet vm' c2 kx).isSome)
      (fun vm' kc hh => hcolstep vm' r2.code kc c2 kx hh) columns _ ?_
    by_cases hen : (alGet vm2 r2.code).isSome
    · rw [if_pos hen]; exact h
    · rw [if_neg hen]
      by_cases hc : c2 = r2.code
      · subst hc
        rw [Option.not_isSome_iff_eq_none] at hen
        simp [cellGet, hen] at h
      · simp only [cellGet, alGet_set_ne vm2 _ hc]
        exact h
  unfold prefill
  induction rows generalizing vm with
  | nil => simp at hr
  | cons r0 rest ih =>
    simp only [List.foldl_cons]
    rcases List.mem_cons.mp hr with he | hmem
    · subst he
      refine foldl_pres _ (fun vm' => (cellGet vm' r.code k).isSome)
        (fun vm' r2 hh => hrowstep_pres vm' r2 r.code k hh) rest _ ?_
      exact hcols columns _ r.code k hk
    · exact ih _ hmem

/-- C10: in the finalized model (default path) the cell value map is
total over rows × columns — for every hierarchy row and every built
column key the map has an entry (a number or `null`), because the
pre-fill plants a `null` everywhere and every later pass only writes,
never removes, entries. -/
theorem C10_values_total (cfg : Cfg) (rows : List Row) (roots : List String)
    (columns : List String) (triples : List (String × String × JVal))
    (r : Row) (hr : r ∈ rows) (k : String) (hk : k ∈ columns) :
    (cellGet (buildCore cfg rows roots columns triples).2 r.code k).isSome := by
  have hpre : (cellGet (prefill rows columns (addCells [] triples))
      r.code k).isSome :=
    prefill_present rows columns (addCells [] triples) r hr k hk
  obtain ⟨bz, aa, sst, sgt⟩ := cfg
  cases aa <;> cases sst <;> cases sgt <;>
    simp only [buildCore, if_true, if_false] <;>
    repeat
      first
      | exact hpre
      | apply gtPass_isSome
      | apply subtotalForest_isSome
      | apply autoAggPass_isSome
      | apply runFixpoint_isSome

theorem C10_values_total_witness :
    (cellGet (buildCore c10Cfg c1Rows ["P", "C"] ["k"] c1Triples).2
      "P" "k").isSome :=
  C10_values_total c10Cfg c1Rows ["P", "C"] ["k"] c1Triples
    { code := "P", children := ["A"] } (by decide) "k" (by decide)

/-! ## Grand-total lemmas (C6) -/
theorem rowsSum_congr {bz : Bool} {rs : List Row} {vm vm' : VMap}
    {k : String}
    (h : ∀ r ∈ rs, cellRead vm r.code k = cellRead vm' r.code k) :
    rowsSum bz rs vm k = rowsSum bz rs vm' k := by
  unfold rowsSum
  have : rs.filterMap (fun r => cellRead vm r.code k) =
      rs.filterMap (fun r => cellRead vm' r.code k) := by
    apply List.filterMap_congr
    intro r hr
    rw [h r hr]
  rw [this]

theorem gtCols (bz : Bool) (sumRows : List Row)
    (hcodes : ∀ r ∈ sumRows, r.code ≠ "__grand_total") :
    ∀ (cols : List String) (vm' : VMap),
      (∀ k, cellRead (cols.foldl (gtCol bz sumRows) vm') "__grand_total" k =
        if k ∈ cols then rowsSum bz sumRows vm' k
        else cellRead vm' "__grand_total" k) ∧
      (∀ c k, c ≠ "__grand_total" →
        cellGet (cols.foldl (gtCol bz sumRows) vm') c k = cellGet vm' c k) := by
  intro cols
  induction cols with
  | nil => intro vm'; exact ⟨by simp, by simp⟩
  | cons k0 rest ih =>
    intro vm'
    obtain ⟨ihRead, ihOther⟩ := ih (gtCol bz sumRows vm' k0)
    have hother : ∀ c k, c ≠ "__grand_total" →
        cellGet (gtCol bz sumRows vm' k0) c k = cellGet vm' c k :=
      fun c k hc => cellGet_set_ne vm' _ (Or.inl hc)
    have hsum : ∀ k, rowsSum bz sumRows (gtCol bz sumRows vm' k0) k =
        rowsSum bz sumRows vm' k := by
      intro k
      apply rowsSum_congr
      intro r hr
      exact cellRead_congr (hother r.code k (hcodes r hr))
    have hstep0 : cellRead (gtCol bz sumRows vm' k0) "__grand_total" k0 =
        rowsSum bz sumRows vm' k0 := by
      simp [gtCol, cellRead, cellGet_set_self]
    have hstepNe : ∀ k, k ≠ k0 →
        cellRead (gtCol bz sumRows vm' k0) "__grand_total" k =
          cellRead vm' "__grand_total" k := by
      intro k hk
      exact cellRead_set_ne vm' _ (Or.inr hk)
    simp only [List.foldl_cons]
    refine ⟨?_, ?_⟩
    · intro k
      by_cases hmem : k ∈ rest
      · rw [ihRead k, if_pos hmem, if_pos (by simp [hmem]), hsum k]
      · rw [ihRead k, if_neg hmem]
        by_cases hk0 : k = k0
        · subst hk0
          rw [if_pos (by simp), hstep0]
        · rw [if_neg (by simp [hk0, hmem]), hstepNe k hk0]
    · intro c k hc
      rw [ihOther c k hc, hother c k hc]

/-- C6 (amended): when the grand total is enabled, exactly one synthetic
grand-total row is appended after all other rows, and its value per
column is the skip-nulls sum of value(row, col) over all rows that are
leaves (no children), not totals, **and not of type blank** — the code
additionally excludes blank-typed leaf rows from `sumRows`, which the
claim as stated does not. -/
theorem C6_grand_total_sum (columns : List String) (bz : Bool)
    (flat : List Row) (vm : VMap) (k : String) (hk : k ∈ columns)
    (hcodes : ∀ r ∈ flat, r.code ≠ "__grand_total") :
    (gtPass columns bz flat vm).1 = flat ++ [gtRow] ∧
      cellRead (gtPass columns bz flat vm).2 "__grand_total" k =
        rowsSum bz
          (flat.filter
            (fun r => r.type ≠ "blank" && r.children.isEmpty && !r.isTotal))
          vm k := by
  refine ⟨rfl, ?_⟩
  have hsub : ∀ r ∈ flat.filter
      (fun r => r.type ≠ "blank" && r.children.isEmpty && !r.isTotal),
      r.code ≠ "__grand_total" :=
    fun r hr => hcodes r (List.mem_of_mem_filter hr)
  obtain ⟨hRead, _⟩ := gtCols bz _ hsub columns vm
  show cellRead (columns.foldl (gtCol bz _) vm) "__grand_total" k = _
  rw [hRead k, if_pos hk]

/-- C6 counterexample: a blank-typed leaf row holding a value (a layout
row declared `blank` whose code coincides with a data leaf) is excluded
from the code's grand total but included by the claim's "all leaves, not
totals": the code yields 3, the claim demands 8. -/
theorem C6_grand_total_blank_leaf_counterexample :
    cellRead (gtPass ["k"] false c6Flat c6Vm).2 "__grand_total" "k" =
        some 3 ∧
      claimedGrandTotal false c6Flat c6Vm "k" = some 8 ∧
      cellRead (gtPass ["k"] false c6Flat c6Vm).2 "__grand_total" "k" ≠
        claimedGrandTotal false c6Flat c6Vm "k" :=
  ⟨by decide, by decide, by decide⟩

theorem C6_grand_total_sum_witness :
    (gtPass ["k"] false c6Flat c6Vm).1 = c6Flat ++ [gtRow] ∧
      cellRead (gtPass ["k"] false c6Flat c6Vm).2 "__grand_total" "k" =
        rowsSum false
          (c6Flat.filter
            (fun r => r.type ≠ "blank" && r.children.isEmpty && !r.isTotal))
          c6Vm "k" :=
  C6_grand_total_sum ["k"] false c6Flat c6Vm "k" (by decide) (by decide)

theorem visitSub_succ (rows : List Row) (columns : List String) (bz : Bool)
    (fuel : Nat) (code : String) (st : List Row × VMap) :
    visitSub rows columns bz (fuel + 1) code st =
      (match rowLookup rows code with
       | none => st
       | some r =>
         pushSubtotalFor columns bz r
           (r.children.foldl (fun s c => visitSub rows columns bz fuel c s)
             (st.1 ++ [r], st.2))) := rfl

theorem visitSub_split (rows : List Row) (columns : List String) (bz : Bool) :
    ∀ (fuel : Nat) (code : String) (out : List Row) (vm : VMap),
      visitSub rows columns bz fuel code (out, vm) =
        (out ++ (visitSub rows columns bz fuel code ([], vm)).1,
          (visitSub rows columns bz fuel code ([], vm)).2) := by
  intro fuel
  induction fuel with
  | zero => intro code out vm; simp [visitSub]
  | succ fuel ih =>
    intro code out vm
    rw [visitSub_succ, visitSub_succ]
    cases hlook : rowLookup rows code with
    | none => simp
    | some r =>
      simp only []
      have hfold : ∀ (cs : List String) (o : List Row) (v : VMap),
          cs.foldl (fun s c => visitSub rows columns bz fuel c s) (o, v) =
            (o ++ (cs.foldl (fun s c => visitSub rows columns bz fuel c s)
                ([], v)).1,
              (cs.foldl (fun s c => visitSub rows columns bz fuel c s)
                ([], v)).2) := by
        intro cs
        induction cs with
        | nil => intro o v; simp
        | cons c0 crest ih2 =>
          intro o v
          simp only [List.foldl_cons]
          rw [ih c0 o v, ih c0 ([] : List Row) v]
          simp only [List.nil_append]
          rw [ih2 (o ++ (visitSub rows columns bz fuel c0 ([], v)).1)
              ((visitSub rows columns bz fuel c0 ([], v)).2)]
          rw [ih2 ((visitSub rows columns bz fuel c0 ([], v)).1)
              ((visitSub rows columns bz fuel c0 ([], v)).2)]
          simp [List.append_assoc]
      have hpush : ∀ (o l : List Row) (v : VMap),
          pushSubtotalFor columns bz r (o ++ l, v) =
            (o ++ (pushSubtotalFor columns bz r (l, v)).1,
              (pushSubtotalFor columns bz r (l, v)).2) := by
        intro o l v
        unfold pushSubtotalFor
        by_cases hq : r.rowLevel = some (-1) ∨ r.type = "blank"
            ∨ r.type = "calc" ∨ r.children.isEmpty
        · rw [if_pos hq, if_pos hq]
        · rw [if_neg hq, if_neg hq]
          simp [List.append_assoc]
      rw [hfold r.children (out ++ [r]) vm]
      rw [hfold r.children ([] ++ [r]) vm]
      rw [List.append_assoc out [r] _]
      rw [hpush out _ _]
      simp

theorem foldl_append_init {α β : Type} (g : β → List α) :
    ∀ (l : List β) (acc : List α),
      l.foldl (fun a c => a ++ g c) acc =
        acc ++ l.foldl (fun a c => a ++ g c) [] := by
  intro l
  induction l with
  | nil => intro acc; simp
  | cons c0 rest ih =>
    intro acc
    simp only [List.foldl_cons]
    rw [ih (acc ++ g c0), ih ([] ++ g c0)]
    simp [List.append_assoc]

theorem foldl_append_mem {α β : Type} (g : β → List α) (l : List β)
    {x : α} (h : x ∈ l.foldl (fun a c => a ++ g c) []) :
    ∃ c ∈ l, x ∈ g c := by
  induction l with
  | nil => simp at h
  | cons c0 rest ih =>
    simp only [List.foldl_cons, List.nil_append] at h
    rw [foldl_append_init g rest (g c0)] at h
    rcases List.mem_append.mp h with h1 | h2
    · exact ⟨c0, by simp, h1⟩
    · obtain ⟨c, hc, hx⟩ := ih h2
      exact ⟨c, by simp [hc], hx⟩

theorem foldl_append_split {α β : Type} (g : β → List α) :
    ∀ (l : List β) {c : β}, c ∈ l →
      ∃ A B : List α, l.foldl (fun a x => a ++ g x) [] = A ++ g c ++ B := by
  intro l
  induction l with
  | nil => intro c hc; simp at hc
  | cons c0 rest ih =>
    intro c hc
    simp only [List.foldl_cons, List.nil_append]
    rw [foldl_append_init g rest (g c0)]
    rcases List.mem_cons.mp hc with he | hmem
    · subst he
      exact ⟨[], rest.foldl (fun a x => a ++ g x) [], by simp⟩
    · obtain ⟨A, B, hAB⟩ := ih hmem
      exact ⟨g c0 ++ A, B, by simp [hAB, List.append_assoc]⟩

theorem visitSub_out_vm (rows : List Row) (columns : List String)
    (bz : Bool) : ∀ (fuel : Nat) (code : String) (vm vm' : VMap),
    (visitSub rows columns bz fuel code ([], vm)).1 =
      (visitSub rows columns bz fuel code ([], vm')).1 := by
  intro fuel
  induction fuel with
  | zero => intro code vm vm'; rfl
  | succ fuel ih =>
    intro code vm vm'
    rw [visitSub_succ, visitSub_succ]
    cases hlook : rowLookup rows code with
    | none => rfl
    | some r =>
      simp only []
      have hfold1 : ∀ (cs : List String) (o : List Row) (v v' : VMap),
          (cs.foldl (fun s c => visitSub rows columns bz fuel c s) (o, v)).1 =
            (cs.foldl (fun s c => visitSub rows columns bz fuel c s)
              (o, v')).1 := by
        intro cs
        induction cs with
        | nil => intro o v v'; rfl
        | cons c0 crest ih2 =>
          intro o v v'
          simp only [List.foldl_cons]
          rw [visitSub_split rows columns bz fuel c0 o v,
            visitSub_split rows columns bz fuel c0 o v']
          rw [ih c0 v v']
          exact ih2 (o ++ (visitSub rows columns bz fuel c0 ([], v')).1) _ _
      have hpush1 : ∀ (st st2 : List Row × VMap), st.1 = st2.1 →
          (pushSubtotalFor columns bz r st).1 =
            (pushSubtotalFor columns bz r st2).1 := by
        intro st st2 he
        unfold pushSubtotalFor
        by_cases hq : r.rowLevel = some (-1) ∨ r.type = "blank"
            ∨ r.type = "calc" ∨ r.children.isEmpty
        · rw [if_pos hq, if_pos hq]
          exact he
        · rw [if_neg hq, if_neg hq]
          simp [he]
      apply hpush1
      exact hfold1 r.children ([] ++ [r]) vm vm'

/-- Every visit emits the same out-block whatever the incoming map. -/
theorem visitSub_out_blockOf (rows : List Row) (columns : List String)
    (bz : Bool) (fuel : Nat) (code : String) (vm : VMap) :
    (visitSub rows columns bz fuel code ([], vm)).1 =
      blockOf rows columns bz fuel code :=
  visitSub_out_vm rows columns bz fuel code vm []

theorem visit_fold_out (rows : List Row) (columns : List String) (bz : Bool)
    (fuel : Nat) : ∀ (cs : List String) (o : List Row) (v : VMap),
    (cs.foldl (fun s c => visitSub rows columns bz fuel c s) (o, v)).1 =
      o ++ cs.foldl
        (fun acc c => acc ++ blockOf rows columns bz fuel c) [] := by
  intro cs
  induction cs with
  | nil => intro o v; simp
  | cons c0 crest ih =>
    intro o v
    simp only [List.foldl_cons, List.nil_append]
    rw [visitSub_split rows columns bz fuel c0 o v]
    rw [ih (o ++ (visitSub rows columns bz fuel c0 ([], v)).1) _]
    rw [visitSub_out_blockOf rows columns bz fuel c0 v]
    rw [foldl_append_init (blockOf rows columns bz fuel) crest
      (blockOf rows columns bz fuel c0)]
    simp [List.append_assoc]

/-- The shape of one subtree's out-block: the row, its children's blocks,
then — for a qualifying row — its subtotal row, last. -/
theorem blockOf_succ (rows : List Row) (columns : List String) (bz : Bool)
    (fuel : Nat) (code : String) (r : Row)
    (hlook : rowLookup rows code = some r) :
    blockOf rows columns bz (fuel + 1) code =
      (r :: r.children.foldl
        (fun acc c => acc ++ blockOf rows columns bz fuel c) []) ++
      (if r.rowLevel = some (-1) ∨ r.type = "blank" ∨ r.type = "calc"
          ∨ r.children.isEmpty then ([] : List Row)
        else [subtotalRowFor r]) := by
  unfold blockOf
  rw [visitSub_succ]
  rw [hlook]
  simp only []
  have hout := visit_fold_out rows columns bz fuel r.children
    (([] : List Row) ++ [r]) ([] : VMap)
  by_cases hq : r.rowLevel = some (-1) ∨ r.type = "blank" ∨ r.type = "calc"
      ∨ r.children.isEmpty
  · rw [if_pos hq]
    unfold pushSubtotalFor
    rw [if_pos hq]
    rw [hout]
    simp
    rfl
  · rw [if_neg hq]
    unfold pushSubtotalFor
    rw [if_neg hq]
    simp only []
    rw [hout]
    simp
    rfl

theorem subtotalForest_out (rows : List Row) (columns : List String)
    (bz : Bool) (roots : List String) (fuel : Nat) (vm : VMap) :
    (subtotalForest rows columns bz roots fuel vm).1 =
      roots.foldl (fun acc c => acc ++ blockOf rows columns bz fuel c) [] := by
  unfold subtotalForest
  have := visit_fold_out rows columns bz fuel roots [] vm
  simpa using this

theorem blockOf_contig (rows : List Row) (columns : List String)
    (bz : Bool) : ∀ (fuel : Nat) (code code₀ : String),
    code₀ ∈ subCodes rows fuel code →
    ∃ (f2 : Nat) (pre post : List Row), 0 < f2 ∧
      blockOf rows columns bz fuel code =
        pre ++ blockOf rows columns bz f2 code₀ ++ post := by
  intro fuel
  induction fuel with
  | zero => intro code code₀ h; simp [subCodes] at h
  | succ fuel ih =>
    intro code code₀ h
    unfold subCodes at h
    cases hlook : rowLookup rows code with
    | none => rw [hlook] at h; simp at h
    | some r =>
      rw [hlook] at h
      simp only [] at h
      rcases List.mem_cons.mp h with he | hmem
      · subst he
        exact ⟨fuel + 1, [], [], Nat.succ_pos fuel, by simp⟩
      · obtain ⟨c, hc, hcode⟩ :=
          foldl_append_mem (subCodes rows fuel) r.children hmem
        obtain ⟨f2, pre, post, hf2, hblock⟩ := ih c code₀ hcode
        obtain ⟨A, B, hAB⟩ :=
          foldl_append_split (blockOf rows columns bz fuel) r.children hc
        refine ⟨f2, r :: A ++ pre,
          post ++ B ++
            (if r.rowLevel = some (-1) ∨ r.type = "blank" ∨ r.type = "calc"
              ∨ r.children.isEmpty then ([] : List Row)
             else [subtotalRowFor r]), hf2, ?_⟩
        rw [blockOf_succ rows columns bz fuel code r hlook, hAB, hblock]
        simp [List.append_assoc]

theorem rowLookup_code {rows : List Row} {code : String} {r : Row}
    (h : rowLookup rows code = some r) : r.code = code := by
  have := List.find?_some h
  exact of_decide_eq_true this

theorem string_append_right_cancel {x y s : String}
    (h : x ++ s = y ++ s) : x = y := by
  have h2 : x.toList ++ s.toList = y.toList ++ s.toList := by
    have hx : (x ++ s).toList = x.toList ++ s.toList := rfl
    have hy : (y ++ s).toList = y.toList ++ s.toList := rfl
    rw [← hx, ← hy, h]
  have h3 : x.toList = y.toList := by
    exact List.append_cancel_right h2
  cases x with
  | mk dx =>
    cases y with
    | mk dy =>
      simp only [String.toList] at h3
      simp [h3]

theorem subCols_read (bz : Bool) (r : Row)
    (hch : ∀ c ∈ r.children, c ≠ r.code ++ "||__subtotal") :
    ∀ (cols : List String) (vm' : VMap),
      (∀ k2, cellRead (cols.foldl (subCol bz r) vm')
          (r.code ++ "||__subtotal") k2 =
        if k2 ∈ cols then childSum bz r vm' k2
        else cellRead vm' (r.code ++ "||__subtotal") k2) ∧
      (∀ c k2, c ≠ r.code ++ "||__subtotal" →
        cellGet (cols.foldl (subCol bz r) vm') c k2 = cellGet vm' c k2) := by
  intro cols
  induction cols with
  | nil => intro vm'; exact ⟨by simp, by simp⟩
  | cons k0 rest ih =>
    intro vm'
    obtain ⟨ihRead, ihOther⟩ := ih (subCol bz r vm' k0)
    have hother : ∀ c k2, c ≠ r.code ++ "||__subtotal" →
        cellGet (subCol bz r vm' k0) c k2 = cellGet vm' c k2 :=
      fun c k2 hc => cellGet_set_ne vm' _ (Or.inl hc)
    have hsum : ∀ k2, childSum bz r (subCol bz r vm' k0) k2 =
        childSum bz r vm' k2 := by
      intro k2
      apply childSum_congr
      intro c hc
      exact cellRead_congr (hother c k2 (hch c hc))
    have hstep0 : cellRead (subCol bz r vm' k0)
        (r.code ++ "||__subtotal") k0 = childSum bz r vm' k0 := by
      simp [subCol, cellRead, cellGet_set_self]
    have hstepNe : ∀ k2, k2 ≠ k0 →
        cellRead (subCol bz r vm' k0) (r.code ++ "||__subtotal") k2 =
          cellRead vm' (r.code ++ "||__subtotal") k2 := by
      intro k2 hk2
      exact cellRead_set_ne vm' _ (Or.inr hk2)
    simp only [List.foldl_cons]
    refine ⟨?_, ?_⟩
    · intro k2
      by_cases hmem : k2 ∈ rest
      · rw [ihRead k2, if_pos hmem, if_pos (by simp [hmem]), hsum k2]
      · rw [ihRead k2, if_neg hmem]
        by_cases hk0 : k2 = k0
        · subst hk0
          rw [if_pos (by simp), hstep0]
        · rw [if_neg (by simp [hk0, hmem]), hstepNe k2 hk0]
    · intro c k2 hc
      rw [ihOther c k2 hc, hother c k2 hc]

theorem subCols_other (bz : Bool) (r2 : Row) :
    ∀ (cols : List String) (vm' : VMap) (c : String) (k2 : String),
      c ≠ r2.code ++ "||__subtotal" →
      cellGet (cols.foldl (subCol bz r2) vm') c k2 = cellGet vm' c k2 := by
  intro cols
  induction cols with
  | nil => intro vm' c k2 _; rfl
  | cons k0 rest ih =>
    intro vm' c k2 hc
    simp only [List.foldl_cons]
    rw [ih _ c k2 hc]
    exact cellGet_set_ne vm' _ (Or.inl hc)

theorem visitSub_stable (rows : List Row) (columns : List String)
    (bz : Bool) (r : Row) (k : String) (vm0 : VMap)
    (hns : ∀ c ∈ r.children, endsWithSub c = false)
    (fuel : Nat) (code : String) (st : List Row × VMap)
    (hS : ∀ c ∈ r.children, cellRead st.2 c k = cellRead vm0 c k) :
    ∀ c ∈ r.children,
      cellRead (visitSub rows columns bz fuel code st).2 c k =
        cellRead vm0 c k := by
  intro c hc
  rw [cellRead_congr
    (visitSub_vm_locality rows columns bz (hns c hc) fuel code st)]
  exact hS c hc

theorem visitSub_sc_or (rows : List Row) (columns : List String) (bz : Bool)
    (r : Row) (k : String) (vm0 : VMap)
    (hrc : rowLookup rows r.code = some r)
    (hns : ∀ c ∈ r.children, endsWithSub c = false)
    (hk : k ∈ columns) :
    ∀ (fuel : Nat) (code : String) (st : List Row × VMap),
      (∀ c ∈ r.children, cellRead st.2 c k = cellRead vm0 c k) →
      (cellRead (visitSub rows columns bz fuel code st).2
          (r.code ++ "||__subtotal") k =
        cellRead st.2 (r.code ++ "||__subtotal") k ∨
       cellRead (visitSub rows columns bz fuel code st).2
          (r.code ++ "||__subtotal") k = childSum bz r vm0 k) := by
  intro fuel
  induction fuel with
  | zero => intro code st _; exact Or.inl rfl
  | succ fuel ih =>
    intro code st hS
    rw [visitSub_succ]
    cases hlook : rowLookup rows code with
    | none => exact Or.inl rfl
    | some r2 =>
      simp only []
      have hfoldstable : ∀ (cs : List String) (st' : List Row × VMap),
          (∀ c ∈ r.children, cellRead st'.2 c k = cellRead vm0 c k) →
          ∀ c ∈ r.children,
            cellRead ((cs.foldl
              (fun s c2 => visitSub rows columns bz fuel c2 s) st')).2 c k =
              cellRead vm0 c k := by
        intro cs
        induction cs with
        | nil => intro st' h' c hc; exact h' c hc
        | cons c0 crest ih2 =>
          intro st' h' c hc
          simp only [List.foldl_cons]
          exact ih2 _ (visitSub_stable rows columns bz r k vm0 hns
            fuel c0 st' h') c hc
      have hfoldor : ∀ (cs : List String) (st' : List Row × VMap),
          (∀ c ∈ r.children, cellRead st'.2 c k = cellRead vm0 c k) →
          (cellRead ((cs.foldl
              (fun s c2 => visitSub rows columns bz fuel c2 s) st')).2
              (r.code ++ "||__subtotal") k =
            cellRead st'.2 (r.code ++ "||__subtotal") k ∨
           cellRead ((cs.foldl
              (fun s c2 => visitSub rows columns bz fuel c2 s) st')).2
              (r.code ++ "||__subtotal") k = childSum bz r vm0 k) := by
        intro cs
        induction cs with
        | nil => intro st' _; exact Or.inl rfl
        | cons c0 crest ih2 =>
          intro st' h'
          simp only [List.foldl_cons]
          have hS2 := visitSub_stable rows columns bz r k vm0 hns
            fuel c0 st' h'
          rcases ih2 (visitSub rows columns bz fuel c0 st') hS2 with h1 | h1
          · rcases ih c0 st' h' with h2 | h2
            · exact Or.inl (h1.trans h2)
            · exact Or.inr (h1.trans h2)
          · exact Or.inr h1
      have hS2 : ∀ c ∈ r.children,
          cellRead ((r2.children.foldl
            (fun s c2 => visitSub rows columns bz fuel c2 s)
            (st.1 ++ [r2], st.2))).2 c k = cellRead vm0 c k :=
        hfoldstable r2.children (st.1 ++ [r2], st.2) hS
      have hOr2 := hfoldor r2.children (st.1 ++ [r2], st.2) hS
      unfold pushSubtotalFor
      by_cases hq2 : r2.rowLevel = some (-1) ∨ r2.type = "blank"
          ∨ r2.type = "calc" ∨ r2.children.isEmpty
      · rw [if_pos hq2]
        exact hOr2
      · rw [if_neg hq2]
        by_cases heq : r2.code = r.code
        · have hr2 : r2 = r := by
            have hcode := rowLookup_code hlook
            rw [← hcode, heq] at hlook
            rw [hrc] at hlook
            exact (Option.some.inj hlook).symm
          subst hr2
          obtain ⟨sRead, _⟩ := subCols_read bz r2
            (fun c hc => ne_subCode_of_not_endsWithSub (hns c hc) r2.code)
            columns _
          rw [sRead k, if_pos hk]
          right
          apply childSum_congr
          intro c hc
          exact hS2 c hc
        · have hne : r.code ++ "||__subtotal" ≠ r2.code ++ "||__subtotal" :=
            fun he => heq (string_append_right_cancel he).symm
          rw [cellRead_congr (subCols_other bz r2 columns _ _ k hne)]
          exact hOr2

theorem visitSub_sc_est (rows : List Row) (columns : List String) (bz : Bool)
    (r : Row) (k : String) (vm0 : VMap)
    (hrc : rowLookup rows r.code = some r)
    (hns : ∀ c ∈ r.children, endsWithSub c = false)
    (hk : k ∈ columns)
    (hq : ¬(r.rowLevel = some (-1) ∨ r.type = "blank" ∨ r.type = "calc"
        ∨ r.children.isEmpty)) :
    ∀ (fuel : Nat) (code : String) (st : List Row × VMap),
      (∀ c ∈ r.children, cellRead st.2 c k = cellRead vm0 c k) →
      r.code ∈ subCodes rows fuel code →
      cellRead (visitSub rows columns bz fuel code st).2
        (r.code ++ "||__subtotal") k = childSum bz r vm0 k := by
  intro fuel
  induction fuel with
  | zero =>
    intro code st _ hmem
    simp [subCodes] at hmem
  | succ fuel ih =>
    intro code st hS hmem
    rw [visitSub_succ]
    cases hlook : rowLookup rows code with
    | none =>
      rw [subCodes, hlook] at hmem
      simp at hmem
    | some r2 =>
      rw [subCodes, hlook] at hmem
      simp only []
      have hfoldstable : ∀ (cs : List String) (st' : List Row × VMap),
          (∀ c ∈ r.children, cellRead st'.2 c k = cellRead vm0 c k) →
          ∀ c ∈ r.children,
            cellRead ((cs.foldl
              (fun s c2 => visitSub rows columns bz fuel c2 s) st')).2 c k =
              cellRead vm0 c k := by
        intro cs
        induction cs with
        | nil => intro st' h' c hc; exact h' c hc
        | cons c0 crest ih2 =>
          intro st' h' c hc
          simp only [List.foldl_cons]
          exact ih2 _ (visitSub_stable rows columns bz r k vm0 hns
            fuel c0 st' h') c hc
      have htgt : ∀ (cs : List String) (st' : List Row × VMap),
          (∀ c ∈ r.children, cellRead st'.2 c k = cellRead vm0 c k) →
          cellRead st'.2 (r.code ++ "||__subtotal") k = childSum bz r vm0 k →
          cellRead ((cs.foldl
              (fun s c2 => visitSub rows columns bz fuel c2 s) st')).2
            (r.code ++ "||__subtotal") k = childSum bz r vm0 k := by
        intro cs
        induction cs with
        | nil => intro st' _ h0; exact h0
        | cons c0 crest ih2 =>
          intro st' h' h0
          simp only [List.foldl_cons]
          have hS2 := visitSub_stable rows columns bz r k vm0 hns
            fuel c0 st' h'
          rcases visitSub_sc_or rows columns bz r k vm0 hrc hns hk
              fuel c0 st' h' with h1 | h1
          · exact ih2 _ hS2 (h1.trans h0)
          · exact ih2 _ hS2 h1
      have hfoldest : ∀ (cs : List String) (st' : List Row × VMap),
          (∀ c ∈ r.children, cellRead st'.2 c k = cellRead vm0 c k) →
          r.code ∈ cs.foldl (fun acc c => acc ++ subCodes rows fuel c) [] →
          cellRead ((cs.foldl
              (fun s c2 => visitSub rows columns bz fuel c2 s) st')).2
            (r.code ++ "||__subtotal") k = childSum bz r vm0 k := by
        intro cs
        induction cs with
        | nil => intro st' _ hm; simp at hm
        | cons c0 crest ih2 =>
          intro st' h' hm
          simp only [List.foldl_cons, List.nil_append] at hm
          rw [foldl_append_init (subCodes rows fuel) crest
            (subCodes rows fuel c0)] at hm
          simp only [List.foldl_cons]
          have hS2 := visitSub_stable rows columns bz r k vm0 hns
            fuel c0 st' h'
          rcases List.mem_append.mp hm with hm1 | hm2
          · exact htgt crest _ hS2 (ih c0 st' h' hm1)
          · exact ih2 _ hS2 hm2
      have hS2 : ∀ c ∈ r.children,
          cellRead ((r2.children.foldl
            (fun s c2 => visitSub rows columns bz fuel c2 s)
            (st.1 ++ [r2], st.2))).2 c k = cellRead vm0 c k :=
        hfoldstable r2.children (st.1 ++ [r2], st.2) hS
      have hchne : ∀ c ∈ r.children, c ≠ r.code ++ "||__subtotal" :=
        fun c hc => ne_subCode_of_not_endsWithSub (hns c hc) r.code
      rcases List.mem_cons.mp hmem with he | hin
      · have hr2 : r2 = r := by
          rw [← he] at hlook
          rw [hrc] at hlook
          exact (Option.some.inj hlook).symm
        subst hr2
        unfold pushSubtotalFor
        rw [if_neg hq]
        obtain ⟨sRead, _⟩ := subCols_read bz r2 hchne columns _
        rw [sRead k, if_pos hk]
        exact childSum_congr hS2
      · have hEst := hfoldest r2.children (st.1 ++ [r2], st.2) hS hin
        unfold pushSubtotalFor
        by_cases hq2 : r2.rowLevel = some (-1) ∨ r2.type = "blank"
            ∨ r2.type = "calc" ∨ r2.children.isEmpty
        · rw [if_pos hq2]
          exact hEst
        · rw [if_neg hq2]
          by_cases heq : r2.code = r.code
          · have hr2 : r2 = r := by
              have hcode := rowLookup_code hlook
              rw [← hcode, heq] at hlook
              rw [hrc] at hlook
              exact (Option.some.inj hlook).symm
            subst hr2
            obtain ⟨sRead, _⟩ := subCols_read bz r2 hchne columns _
            rw [sRead k, if_pos hk]
            exact childSum_congr hS2
          · have hne : r.code ++ "||__subtotal" ≠ r2.code ++ "||__subtotal" :=
              fun he2 => heq (string_append_right_cancel he2).symm
            rw [cellRead_congr (subCols_other bz r2 columns _ _ k hne)]
            exact hEst

theorem visitSub_fold_est (rows : List Row) (columns : List String) (bz : Bool)
    (r : Row) (k : String) (vm0 : VMap)
    (hrc : rowLookup rows r.code = some r)
    (hns : ∀ c ∈ r.children, endsWithSub c = false)
    (hk : k ∈ columns)
    (hq : ¬(r.rowLevel = some (-1) ∨ r.type = "blank" ∨ r.type = "calc"
        ∨ r.children.isEmpty)) (fuel : Nat) :
    ∀ (cs : List String) (st : List Row × VMap),
      (∀ c ∈ r.children, cellRead st.2 c k = cellRead vm0 c k) →
      r.code ∈ cs.foldl (fun acc c => acc ++ subCodes rows fuel c) [] →
      cellRead ((cs.foldl
          (fun s c => visitSub rows columns bz fuel c s) st)).2
        (r.code ++ "||__subtotal") k = childSum bz r vm0 k := by
  intro cs
  induction cs with
  | nil => intro st _ hm; simp at hm
  | cons c0 crest ih =>
    intro st hS hm
    simp only [List.foldl_cons, List.nil_append] at hm
    rw [foldl_append_init (subCodes rows fuel) crest
      (subCodes rows fuel c0)] at hm
    simp only [List.foldl_cons]
    have hS2 := visitSub_stable rows columns bz r k vm0 hns fuel c0 st hS
    rcases List.mem_append.mp hm with hm1 | hm2
    · have hEst := visitSub_sc_est rows columns bz r k vm0 hrc hns hk hq
        fuel c0 st hS hm1
      have hgen : ∀ (cr : List String) (st1 : List Row × VMap),
          (∀ c ∈ r.children, cellRead st1.2 c k = cellRead vm0 c k) →
          cellRead st1.2 (r.code ++ "||__subtotal") k = childSum bz r vm0 k →
          cellRead ((cr.foldl
              (fun s c => visitSub rows columns bz fuel c s) st1)).2
            (r.code ++ "||__subtotal") k = childSum bz r vm0 k := by
        intro cr
        induction cr with
        | nil => intro st1 _ h0; exact h0
        | cons c1 crr ih2 =>
          intro st1 h' h0
          simp only [List.foldl_cons]
          have hS3 := visitSub_stable rows columns bz r k vm0 hns
            fuel c1 st1 h'
          rcases visitSub_sc_or rows columns bz r k vm0 hrc hns hk
              fuel c1 st1 h' with h1 | h1
          · exact ih2 _ hS3 (h1.trans h0)
          · exact ih2 _ hS3 h1
      exact hgen crest _ hS2 hEst
    · exact ih _ hS2 hm2

theorem subtotalForest_sc (rows : List Row) (columns : List String) (bz : Bool)
    (r : Row) (k : String) (vm : VMap) (roots : List String) (fuel : Nat)
    (hrc : rowLookup rows r.code = some r)
    (hns : ∀ c ∈ r.children, endsWithSub c = false)
    (hk : k ∈ columns)
    (hq : ¬(r.rowLevel = some (-1) ∨ r.type = "blank" ∨ r.type = "calc"
        ∨ r.children.isEmpty))
    (hmem : r.code ∈ subCodesForest rows roots fuel) :
    cellRead (subtotalForest rows columns bz roots fuel vm).2
      (r.code ++ "||__subtotal") k = childSum bz r vm k := by
  unfold subCodesForest at hmem
  exact visitSub_fold_est rows columns bz r k vm hrc hns hk hq fuel
    roots ([], vm) (fun c _ => rfl) hmem

theorem rowLookup_mem {rows : List Row} {code : String} {r : Row}
    (h : rowLookup rows code = some r) : r ∈ rows :=
  List.mem_of_find?_eq_some h

theorem blockOf_mem (rows : List Row) (columns : List String) (bz : Bool) :
    ∀ (fuel : Nat) (code : String) (x : Row),
      x ∈ blockOf rows columns bz fuel code →
      x ∈ rows ∨ ∃ r2 ∈ rows, x = subtotalRowFor r2 := by
  intro fuel
  induction fuel with
  | zero => intro code x hx; simp [blockOf, visitSub] at hx
  | succ fuel ih =>
    intro code x hx
    cases hlook : rowLookup rows code with
    | none =>
      unfold blockOf at hx
      rw [visitSub_succ, hlook] at hx
      simp at hx
    | some r =>
      rw [blockOf_succ rows columns bz fuel code r hlook] at hx
      rcases List.mem_append.mp hx with h1 | h2
      · rcases List.mem_cons.mp h1 with he | hm
        · exact Or.inl (he ▸ rowLookup_mem hlook)
        · obtain ⟨c, _, hc⟩ := foldl_append_mem _ r.children hm
          exact ih c x hc
      · by_cases hq : r.rowLevel = some (-1) ∨ r.type = "blank"
            ∨ r.type = "calc" ∨ r.children.isEmpty
        · rw [if_pos hq] at h2
          simp at h2
        · rw [if_neg hq] at h2
          rcases List.mem_singleton.mp h2 with he
          exact Or.inr ⟨r, rowLookup_mem hlook, he⟩

theorem subtotalForest_mem (rows : List Row) (columns : List String)
    (bz : Bool) (roots : List String) (fuel : Nat) (vm : VMap) (x : Row)
    (hx : x ∈ (subtotalForest rows columns bz roots fuel vm).1) :
    x ∈ rows ∨ ∃ r2 ∈ rows, x = subtotalRowFor r2 := by
  rw [subtotalForest_out] at hx
  obtain ⟨c, _, hc⟩ := foldl_append_mem _ roots hx
  exact blockOf_mem rows columns bz fuel c x hc

theorem endsWithSub_append (x : String) :
    endsWithSub (x ++ "||__subtotal") = true := by
  unfold endsWithSub
  have h2 : (x ++ "||__subtotal").toList =
      x.toList ++ ("||__subtotal").toList := rfl
  rw [h2]
  rw [List.isSuffixOf_iff_suffix]
  exact List.suffix_append x.toList _

/-- C5: subtotal injection. For a qualifying internal row `r` reached by the
subtotal traversal (non-blank, non-calc, with at least one child, not the
synthetic group root), the rebuilt flat list contains `r`, then `r`'s full
subtree block, then — immediately after it — the synthetic row
`r.code || "||__subtotal"`; the stored subtotal value for every column
equals `childSum`, the sum over `r`'s DIRECT children's present values in
the pre-pass map (`null`, or `0` under blankAsZero, when no child has a
value), so deeper descendants are never read; and the synthetic row is not
anyone's tree child (it has no children itself, and no emitted row lists it
among its children). The spec omits the blank/calc exclusion, which the
counterexample below exhibits. -/
theorem C5_subtotal_injection (rows : List Row) (columns : List String)
    (bz : Bool) (roots : List String) (fuel : Nat) (vm : VMap) (r : Row)
    (k : String)
    (hrc : rowLookup rows r.code = some r)
    (hglobal : ∀ r' ∈ rows, ∀ c ∈ r'.children, endsWithSub c = false)
    (hk : k ∈ columns)
    (hq : ¬(r.rowLevel = some (-1) ∨ r.type = "blank" ∨ r.type = "calc"
        ∨ r.children.isEmpty))
    (hmem : r.code ∈ subCodesForest rows roots fuel) :
    (∃ (f3 : Nat) (pre post : List Row),
      (subtotalForest rows columns bz roots fuel vm).1 =
        pre ++ (r :: r.children.foldl
            (fun acc c => acc ++ blockOf rows columns bz f3 c) []) ++
          [subtotalRowFor r] ++ post) ∧
    cellRead (subtotalForest rows columns bz roots fuel vm).2
      (r.code ++ "||__subtotal") k = childSum bz r vm k ∧
    (subtotalRowFor r).children = [] ∧
    (∀ r' ∈ (subtotalForest rows columns bz roots fuel vm).1,
      r.code ++ "||__subtotal" ∉ r'.children) := by
  have hns : ∀ c ∈ r.children, endsWithSub c = false :=
    hglobal r (rowLookup_mem hrc)
  refine ⟨?_, ?_, rfl, ?_⟩
  · unfold subCodesForest at hmem
    obtain ⟨c, hcr, hcode⟩ := foldl_append_mem (subCodes rows fuel) roots hmem
    obtain ⟨f2, pre0, post0, hf2, hblock⟩ :=
      blockOf_contig rows columns bz fuel c r.code hcode
    obtain ⟨A, B, hAB⟩ :=
      foldl_append_split (blockOf rows columns bz fuel) roots hcr
    obtain ⟨f3, rfl⟩ : ∃ f3, f2 = f3 + 1 :=
      ⟨f2 - 1, (Nat.succ_pred_eq_of_pos hf2).symm⟩
    refine ⟨f3, A ++ pre0, post0 ++ B, ?_⟩
    rw [subtotalForest_out, hAB, hblock]
    rw [blockOf_succ rows columns bz f3 r.code r hrc, if_neg hq]
    simp [List.append_assoc]
  · exact subtotalForest_sc rows columns bz r k vm roots fuel hrc hns hk
      hq hmem
  · intro r' hr' hcin
    rcases subtotalForest_mem rows columns bz roots fuel vm r' hr'
        with hin | ⟨r2, _, he⟩
    · have := hglobal r' hin _ hcin
      rw [endsWithSub_append] at this
      exact Bool.noConfusion this
    · rw [he] at hcin
      simp [subtotalRowFor] at hcin

theorem C5_subtotal_injection_witness :
    (rowLookup c5Rows c5P.code = some c5P ∧
     (∀ r' ∈ c5Rows, ∀ c ∈ r'.children, endsWithSub c = false) ∧
     "k" ∈ ["k", "j"] ∧
     ¬(c5P.rowLevel = some (-1) ∨ c5P.type = "blank" ∨ c5P.type = "calc"
        ∨ c5P.children.isEmpty) ∧
     c5P.code ∈ subCodesForest c5Rows ["P"] 2) ∧
    ((∃ (f3 : Nat) (pre post : List Row),
      (subtotalForest c5Rows ["k", "j"] false ["P"] 2 c5Vm).1 =
        pre ++ (c5P :: c5P.children.foldl
            (fun acc c => acc ++ blockOf c5Rows ["k", "j"] false f3 c) []) ++
          [subtotalRowFor c5P] ++ post) ∧
    cellRead (subtotalForest c5Rows ["k", "j"] false ["P"] 2 c5Vm).2
      (c5P.code ++ "||__subtotal") "k" = childSum false c5P c5Vm "k" ∧
    (subtotalRowFor c5P).children = [] ∧
    (∀ r' ∈ (subtotalForest c5Rows ["k", "j"] false ["P"] 2 c5Vm).1,
      c5P.code ++ "||__subtotal" ∉ r'.children)) :=
  ⟨⟨by decide, by decide, by decide, by decide, by decide⟩,
    C5_subtotal_injection c5Rows ["k", "j"] false ["P"] 2 c5Vm c5P "k"
      (by decide) (by decide) (by decide) (by decide) (by decide)⟩

/-- C5 counterexample: a calc-typed internal row with a child, which the
spec's wording ("every internal row with at least one child, excluding the
synthetic group root") says must receive a subtotal, gets none: the code
also skips `blank`- and `calc`-typed rows, so no `P||__subtotal` row is
emitted and no such cell is written. -/
theorem C5_subtotal_injection_counterexample :
    (rowLookup c5xRows "P" = some c5xP ∧ c5xP.children ≠ [] ∧
      c5xP.rowLevel ≠ some (-1) ∧
      "P" ∈ subCodesForest c5xRows ["P"] 2) ∧
    (∀ r' ∈ (subtotalForest c5xRows ["k"] false ["P"] 2 c5Vm).1,
      r'.code ≠ "P||__subtotal") ∧
    cellGet (subtotalForest c5xRows ["k"] false ["P"] 2 c5Vm).2
      "P||__subtotal" "k" = none := by
  refine ⟨⟨by decide, by decide, by decide, by decide⟩, by decide, by decide⟩

/-- C7 (code bug): `VALUE(code, measure, period)` builds its override
column key as `period||measure` (evalAst VALUE branch, lines 5814-5825),
but every built column key has the form
`colLevels.join("||")||bucket||measure` (ensureColumn, lines 5385-5402):
the override key lacks the bucket segment, so it can never equal a built
key for a single-level column (first conjunct, fully general), and the
concrete overriding lookup reads a missing cell and yields blank (`null`)
even though the targeted column's cell holds `7`; only the no-override
form reads the current column, as the spec says. -/
theorem C7_value_override_never_matches :
    (∀ p m : String, p ++ "||" ++ m ≠ ensureColumnKey "values" m [p]) ∧
    c7Key = "2023||values||Sales" ∧
    cellRead c7Vm "A" c7Key = some 7 ∧
    evalAst [] false c7Vm c7Key c7AstNoOv = .num 7 ∧
    evalAst [] false c7Vm c7Key c7Ast = .null := by
  refine ⟨?_, by decide, by decide, by decide, by decide⟩
  intro p m h
  have hl := congrArg String.length h
  simp [ensureColumnKey, joinSep, String.length_append] at hl
  exact absurd hl (by decide)

theorem addRow_other (m : List (String × BRow)) (oi : Nat)
    (r : LayoutRowIn) (fl fp : Option String) {c : String}
    (h : jsTrim r.code ≠ c) :
    alGet (addRow m oi r fl fp).1 c = alGet m c := by
  unfold addRow
  by_cases hc : jsTrim r.code = ""
  · rw [if_pos hc]
  · rw [if_neg hc]
    exact alGet_set_ne m _ (fun he => h he.symm)

theorem dataFold_pres (dataParents : List (String × String)) :
    ∀ (dl : List (String × String)) (st : List (String × BRow) × Nat)
      (code : String) (ex : BRow),
      alGet st.1 code = some ex → ex.label ≠ "" →
      strFalsy ex.parent = false →
      (∀ q ∈ dl, jsTrim q.1 = q.1) →
      alGet (dl.foldl (dataStep dataParents) st).1 code = some ex := by
  intro dl
  induction dl with
  | nil => intro st code ex hget _ _ _; exact hget
  | cons p tl ih =>
    intro st code ex hget hlab hpar htrim
    simp only [List.foldl_cons]
    have htl : ∀ q ∈ tl, jsTrim q.1 = q.1 :=
      fun q hq => htrim q (List.mem_cons_of_mem p hq)
    by_cases hp : p.1 = code
    · subst hp
      have hstep : dataStep dataParents st p = (alSet st.1 p.1 ex, st.2) := by
        unfold dataStep
        rw [hget]
        simp only [hpar, Bool.false_eq_true, if_false, if_neg hlab]
      rw [hstep]
      exact ih _ p.1 ex (alGet_set_self st.1 p.1 ex) hlab hpar htl
    · cases halg : alGet st.1 p.1 with
      | some ex0 =>
        have hstep : (dataStep dataParents st p).1 =
            alSet st.1 p.1 (if (if strFalsy ex0.parent then
                { ex0 with parent := alGet dataParents p.1 }
              else ex0).label = "" then
              { (if strFalsy ex0.parent then
                  { ex0 with parent := alGet dataParents p.1 }
                else ex0) with label := p.2 }
            else (if strFalsy ex0.parent then
                { ex0 with parent := alGet dataParents p.1 }
              else ex0)) ∧ (dataStep dataParents st p).2 = st.2 := by
          unfold dataStep
          rw [halg]
          exact ⟨rfl, rfl⟩
        have hget2 : alGet (dataStep dataParents st p).1 code = some ex := by
          rw [hstep.1, alGet_set_ne _ _ (fun he => hp he.symm)]
          exact hget
        exact ih _ code ex hget2 hlab hpar htl
      | none =>
        have hstep : dataStep dataParents st p =
            addRow st.1 st.2 { code := p.1, type := some "data" }
              (some p.2) (alGet dataParents p.1) := by
          unfold dataStep
          rw [halg]
        rw [hstep]
        have hget2 : alGet (addRow st.1 st.2
            { code := p.1, type := some "data" }
            (some p.2) (alGet dataParents p.1)).1 code = some ex := by
          rw [addRow_other st.1 st.2 _ _ _
            (show jsTrim p.1 ≠ code by rw [htrim p (by simp)]; exact hp)]
          exact hget
        exact ih _ code ex hget2 hlab hpar htl

/-- C8: layout-versus-data precedence.  A declared row whose built node
carries a truthy label and a truthy parent (nonempty strings) survives
the whole tuple-discovery merge untouched.  This is the PROVABLE part
of the claim: the source's fill conditions (`if (!existing.parent)`,
`if (!existing.label)`, lines 5644-5649) treat a declared `null` (or
empty) parent and an empty label as gaps and overwrite them with the
data-discovered values, so the claim's "including a declared parent of
null meaning root" is false — see the counterexample. -/
theorem C8_layout_precedence (layoutRows : List LayoutRowIn)
    (dataLabels dataParents : List (String × String)) (code : String)
    (ex : BRow)
    (hget : alGet (layoutRows.foldl
        (fun st r => addRow st.1 st.2 r none none) ([], 0)).1 code =
      some ex)
    (hlab : ex.label ≠ "")
    (hpar : strFalsy ex.parent = false)
    (htrim : ∀ q ∈ dataLabels, jsTrim q.1 = q.1) :
    alGet (buildRows layoutRows dataLabels dataParents) code = some ex := by
  unfold buildRows
  exact dataFold_pres dataParents dataLabels _ code ex hget hlab hpar htrim

theorem C8_layout_precedence_witness :
    (alGet (c8Layout.foldl
        (fun st r => addRow st.1 st.2 r none none) ([], 0)).1 "B" =
      some { code := "B", label := "Child", parent := some "A0",
             orderIndex := 0, type := "data" } ∧
     ({ code := "B", label := "Child", parent := some "A0",
        orderIndex := 0, type := "data" : BRow }.label ≠ "") ∧
     strFalsy (some "A0") = false ∧
     (∀ q ∈ c8Labels, jsTrim q.1 = q.1)) ∧
    alGet (buildRows c8Layout c8Labels c8Parents) "B" =
      some { code := "B", label := "Child", parent := some "A0",
             orderIndex := 0, type := "data" } :=
  ⟨⟨by decide, by decide, by decide, by decide⟩,
    C8_layout_precedence c8Layout c8Labels c8Parents "B"
      { code := "B", label := "Child", parent := some "A0",
        orderIndex := 0, type := "data" }
      (by decide) (by decide) (by decide) (by decide)⟩

/-- C8 counterexample: the layout declares row `B` with `parent: null`
(explicitly a root).  Alone, the built node is a root (`parent = none`);
but as soon as tuple discovery also sees code `B` with discovered parent
`"A"`, the merge overwrites the declared `null` parent with `"A"` —
data discovery DOES override an explicitly declared root parent, contrary
to the claim (the declared label, being nonempty, does survive). -/
theorem C8_declared_null_parent_counterexample :
    (alGet (buildRows c8xLayout [] []) "B").map (fun b => b.parent) =
      some none ∧
    (alGet (buildRows c8xLayout c8Labels c8Parents) "B").map
        (fun b => b.parent) = some (some "A") ∧
    (alGet (buildRows c8xLayout c8Labels c8Parents) "B").map
        (fun b => b.label) = some "Child" := by
  refine ⟨by decide, by decide, by decide⟩

theorem oOr_none {α : Type} (a : Option α) : oOr a none = a := by
  cases a <;> rfl

theorem oOr_assoc {α : Type} (a b c : Option α) :
    oOr (oOr a b) c = oOr a (oOr b c) := by
  cases a <;> cases b <;> rfl

theorem oOr_map {α β : Type} (f : α → β) (x y : Option α) :
    (oOr x y).map f = oOr (x.map f) (y.map f) := by
  cases x <;> rfl

theorem getProp_empty (p : StyleProp) : getProp {} p = none := by
  cases p <;> rfl

theorem getProp_merge (a b : CFStyleE) (p : StyleProp) :
    getProp (mergeStyle a b) p = oOr (getProp b p) (getProp a p) := by
  cases p <;> simp [getProp, mergeStyle, oOr_map]

theorem findSome_append {α β : Type} (f : α → Option β) :
    ∀ (l1 l2 : List α),
      ((l1 ++ l2).findSome? f) = oOr (l1.findSome? f) (l2.findSome? f) := by
  intro l1
  induction l1 with
  | nil => intro l2; simp [List.findSome?, oOr]
  | cons a t ih =>
    intro l2
    simp only [List.cons_append, List.findSome?_cons]
    cases ha : f a with
    | some b => rfl
    | none => exact ih l2

theorem findSome_singleton {α β : Type} (f : α → Option β) (a : α) :
    ([a].findSome? f) = f a := by
  simp only [List.findSome?_cons]
  cases ha : f a with
  | some b => rfl
  | none => rfl

theorem cfFold_char (m : CFRuleE → Bool) :
    ∀ (rules : List CFRuleE) (out : Option CFStyleE),
      (rules.filter m = [] → rules.foldl (cfFoldStep m) out = out) ∧
      (rules.filter m ≠ [] →
        ∃ s, rules.foldl (cfFoldStep m) out = some s ∧
          ∀ p, getProp s p =
            oOr (((rules.filter m).reverse).findSome?
                (fun r => getProp r.style p))
              (getProp (out.getD {}) p)) := by
  intro rules
  induction rules with
  | nil =>
    intro out
    exact ⟨fun _ => rfl, fun h => absurd rfl h⟩
  | cons r rs ih =>
    intro out
    by_cases hm : m r
    · have hstep : cfFoldStep m out r =
          some (mergeStyle (out.getD {}) r.style) := by
        simp [cfFoldStep, hm]
      have hfil : (r :: rs).filter m = r :: rs.filter m := by
        simp [List.filter_cons, hm]
      constructor
      · intro h
        rw [hfil] at h
        exact absurd h (by simp)
      · intro _
        simp only [List.foldl_cons, hstep, hfil]
        by_cases hrs : rs.filter m = []
        · have h1 := (ih (some (mergeStyle (out.getD {}) r.style))).1 hrs
          refine ⟨mergeStyle (out.getD {}) r.style, h1, ?_⟩
          intro p
          rw [getProp_merge, hrs]
          rw [show ((r :: ([] : List CFRuleE)).reverse) = [r] from rfl]
          rw [findSome_singleton]
        · obtain ⟨s, hs, hp⟩ :=
            (ih (some (mergeStyle (out.getD {}) r.style))).2 hrs
          refine ⟨s, hs, ?_⟩
          intro p
          rw [hp p]
          simp only [Option.getD_some]
          rw [getProp_merge]
          rw [show (r :: rs.filter m).reverse = (rs.filter m).reverse ++ [r]
            from by simp]
          rw [findSome_append, findSome_singleton, oOr_assoc]
    · have hstep : cfFoldStep m out r = out := by
        simp [cfFoldStep, hm]
      have hfil : (r :: rs).filter m = rs.filter m := by
        simp [List.filter_cons, hm]
      constructor
      · intro h
        rw [hfil] at h
        simp only [List.foldl_cons, hstep]
        exact (ih out).1 h
      · intro h
        rw [hfil] at h
        simp only [List.foldl_cons, hstep, hfil]
        exact (ih out).2 h

theorem cfEval_char (m : CFRuleE → Bool) (rules : List CFRuleE) :
    (rules.foldl (cfFoldStep m) none = none ↔ rules.filter m = []) ∧
    ∀ p, getProp ((rules.foldl (cfFoldStep m) none).getD {}) p =
      ((rules.filter m).reverse).findSome? (fun r => getProp r.style p) := by
  obtain ⟨h1, h2⟩ := cfFold_char m rules none
  by_cases hf : rules.filter m = []
  · refine ⟨⟨fun _ => hf, fun _ => h1 hf⟩, ?_⟩
    intro p
    rw [h1 hf, hf]
    simp [getProp_empty, List.findSome?]
  · obtain ⟨s, hs, hp⟩ := h2 hf
    refine ⟨⟨fun h => ?_, fun h => absurd h hf⟩, ?_⟩
    · rw [hs] at h
      exact Option.noConfusion h
    · intro p
      rw [hs]
      simp only [Option.getD_some]
      rw [hp p]
      rw [show ((none : Option CFStyleE).getD {}) = {} from rfl,
        getProp_empty, oOr_none]

/-- C9: last-write-wins per style property.  For both evaluators, the
result is `null` exactly when no enabled rule matches, and otherwise the
merged style's every property equals the value defined by the LAST
matching rule (in stored list order) that defines that property —
scanning the matched sublist from the end — so a later matching rule's
defined properties overwrite earlier ones, its undefined properties
leave the earlier value, and in particular of two enabled background
rules matching the same cell the later explicit color wins. -/
theorem C9_cf_last_write_wins (rules : List CFRuleE) (ctx : CFCtx) :
    ((evalCfRules rules ctx = none ↔
        rules.filter (cfMatches ctx) = []) ∧
     ∀ p : StyleProp,
       getProp ((evalCfRules rules ctx).getD {}) p =
         ((rules.filter (cfMatches ctx)).reverse).findSome?
           (fun r => getProp r.style p)) ∧
    ((evalCfRulesForValueCell rules ctx = none ↔
        rules.filter (cfMatchesV ctx) = []) ∧
     ∀ p : StyleProp,
       getProp ((evalCfRulesForValueCell rules ctx).getD {}) p =
         ((rules.filter (cfMatchesV ctx)).reverse).findSome?
           (fun r => getProp r.style p)) :=
  ⟨cfEval_char (cfMatches ctx) rules, cfEval_char (cfMatchesV ctx) rules⟩

example :
    evalCfRules [c9r1, c9r2] c9ctx =
      some { background := some "#00ff00", fontColor := some "#111111" } := by
  decide

example :
    evalCfRulesForValueCell [c9r1, c9r2] c9ctx =
      some { background := some "#00ff00", fontColor := some "#111111" } := by
  decide

example :
    evalCfRules [c9r1, { c9r2 with enabled := false }] c9ctx =
      some { background := some "#ff0000", fontColor := some "#111111" } := by
  decide

example :
    matchText "contains" "Alp" "  alpha " = true ∧
    matchText "equals" "alpha" "Alpha  " = true ∧
    matchText "contains" "beta" "Alpha" = false := by
  decide

end FinMatrix
